import Mathlib

/-!
# Verification of the ERMS priority scheduling and ordering core

A shallow embedding of the in-memory core of the emergency-room management
system backend (`backend/app/core/{queue,heap,graph}.py` and the services
`triage_service.py`, `waiting_room_service.py`, `treatment_history_service.py`),
together with proofs and refutations of the specified properties.

Conventions of the embedding:
* Python numbers (ints and floats carrying priority scores, weights and vital
  signs) are modelled as rationals `ℚ`; Python ints that are only compared or
  used as counters stay `ℤ`/`ℕ`.
* Opaque identifiers (patient ids, vertex names, payloads) are modelled as `ℕ`
  or as a type parameter.
* Python dicts are modelled either as association lists (when insertion order
  is observable) or as functions into `Option` (when only lookup/update is
  used); a missing-key access (`d[k]` raising `KeyError`) is modelled with
  `Except`/`Option` results.
* Mutating methods become functions returning the updated state.
-/

namespace ERMS

/-! ## `backend/app/core/queue.py` — class `PriorityQueue`

The backing `deque` of `(priority, item)` pairs is a `List (ℚ × α)`; `enqueue`
appends.  `dequeue` and `peek` both perform the same linear scan for the
entry with the highest priority (strict `>` comparison, so the first
occurrence wins ties) and return its item; neither method mutates the deque
(the source's `dequeue` contains no removal), which is why both are pure
functions of the queue here. -/

namespace PriorityQueue

variable {α : Type}

def enqueue (queue : List (ℚ × α)) (item : α) (priority : ℚ) : List (ℚ × α) :=
  queue ++ [(priority, item)]

/-- The scan `for i in range(1, len(queue)): if queue[i][0] > queue[best][0]`,
tracking the best entry instead of its index. -/
def bestScan (best : ℚ × α) : List (ℚ × α) → ℚ × α
  | [] => best
  | x :: xs => bestScan (if x.1 > best.1 then x else best) xs

def dequeue (queue : List (ℚ × α)) : Option α :=
  match queue with
  | [] => none
  | x :: xs => some (bestScan x xs).2

def peek (queue : List (ℚ × α)) : Option α :=
  match queue with
  | [] => none
  | x :: xs => some (bestScan x xs).2

def is_empty (queue : List (ℚ × α)) : Bool :=
  queue.length = 0

def size (queue : List (ℚ × α)) : Nat :=
  queue.length

end PriorityQueue

/-! ## `backend/app/services/triage_service.py` — class `TriageService` -/

inductive ESILevel where
  | LEVEL_1
  | LEVEL_2
  | LEVEL_3
  | LEVEL_4
  | LEVEL_5
deriving DecidableEq

/-- A value stored under the `"blood_pressure"` key of the vital-signs dict.
`parsed s d` models a well-formed `"systolic/diastolic"` string (which the
source splits and converts with `map(int, bp.split('/'))`); `unparsable`
models any value rejected by the guard `isinstance(bp, str) and '/' in bp`,
which the source skips without a penalty. -/
inductive BloodPressureValue where
  | parsed (systolic diastolic : ℤ)
  | unparsable
deriving DecidableEq

/-- The vital-signs dict: each field is `none` when its key is absent. -/
structure VitalSigns where
  heart_rate : Option ℚ
  blood_pressure : Option BloodPressureValue
  oxygen_saturation : Option ℚ

namespace TriageService

/-- The `base_score` dict of `calculate_priority_score`. -/
def base_score : ESILevel → ℚ
  | .LEVEL_1 => 100
  | .LEVEL_2 => 80
  | .LEVEL_3 => 60
  | .LEVEL_4 => 40
  | .LEVEL_5 => 20

/-- `time_adjustment = min(waiting_time * 0.1, 20)`. -/
def time_adjustment (waiting_time : ℤ) : ℚ :=
  min ((waiting_time : ℚ) * (1 / 10)) 20

/-- `_calculate_vital_adjustment`: `adjustment` starts at 0 and accumulates
the heart-rate, blood-pressure and oxygen-saturation penalties in order. -/
def calculate_vital_adjustment (vital_signs : VitalSigns) : ℚ :=
  let adjustment : ℚ := 0
  let adjustment := match vital_signs.heart_rate with
    | some hr => if hr < 50 ∨ hr > 120 then adjustment + 10 else adjustment
    | none => adjustment
  let adjustment := match vital_signs.blood_pressure with
    | some (.parsed systolic _) =>
        if systolic < 90 ∨ systolic > 180 then adjustment + 10 else adjustment
    | some .unparsable => adjustment
    | none => adjustment
  let adjustment := match vital_signs.oxygen_saturation with
    | some spo2 => if spo2 < 92 then adjustment + 15 else adjustment
    | none => adjustment
  adjustment

/-- `calculate_priority_score = base_score + time_adjustment + vital_adjustment`. -/
def calculate_priority_score (esi_level : ESILevel) (waiting_time : ℤ)
    (vital_signs : VitalSigns) : ℚ :=
  base_score esi_level + time_adjustment waiting_time +
    calculate_vital_adjustment vital_signs

end TriageService

/-! ## `app.core.stack` — class `Stack`

Modelled from the spec: the module `app/core/stack.py` is imported by
`treatment_history_service.py` (`from app.core.stack import Stack`) but is not
present in the source tree.  Spec §4.4 gives its contract: `push(id)`,
`pop()` returning the last-pushed id or null if empty, `peek()`, `isEmpty()`,
`clear()`; strict LIFO with O(1) operations.  The stack of action identifiers
is a list with its head as the top. -/

structure Stack where
  items : List Nat

namespace Stack

def empty : Stack := ⟨[]⟩

def push (s : Stack) (id : Nat) : Stack := ⟨id :: s.items⟩

def pop (s : Stack) : Option Nat × Stack :=
  match s.items with
  | [] => (none, s)
  | x :: xs => (some x, ⟨xs⟩)

def peek (s : Stack) : Option Nat :=
  match s.items with
  | [] => none
  | x :: _ => some x

def is_empty (s : Stack) : Bool :=
  s.items.isEmpty

def clear (_ : Stack) : Stack := ⟨[]⟩

end Stack

/-! ## `backend/app/services/waiting_room_service.py` — class `WaitingRoomService`

The service owns a `PriorityQueue` of patient ids and a `_queue_cache` dict
(insertion-ordered association list) of cache entries.  The database is
modelled as a lookup function from patient id to patient record, and
`datetime.now()` as an explicit `now` argument. -/

/-- The fields of a `Patient` row that the waiting-room service reads. -/
structure PatientRec where
  name : Nat
  esi_level : ℤ
  created_at : Nat

/-- A `_queue_cache` value. -/
structure CacheEntry where
  priority : ℚ
  added_at : Nat
  patient_name : Nat
  esi_level : ℤ
  created_at : Nat

structure WaitingRoomService where
  waiting_queue : List (ℚ × Nat)
  queue_cache : List (Nat × CacheEntry)

/-- The two `ValueError`s `add_to_waiting_room` can raise. -/
inductive WRError where
  | duplicateEntry
  | patientNotFound
deriving DecidableEq

/-- The dict returned by a successful `add_to_waiting_room`. -/
structure AddResult where
  patient_id : Nat
  patient_name : Nat
  priority_score : ℚ
  position_in_queue : ℤ
  total_waiting : Nat
  estimated_wait_minutes : Option ℤ

namespace WaitingRoomService

def cacheContains (svc : WaitingRoomService) (patient_id : Nat) : Bool :=
  (svc.queue_cache.find? (fun e => e.1 = patient_id)).isSome

/-- `_get_position_in_queue`: sort the cache by priority descending
(`sorted` is stable, as is insertion sort with a `≤` relation) and return the
1-indexed position of the patient, `-1` if absent. -/
def get_position_in_queue (svc : WaitingRoomService) (patient_id : Nat) : ℤ :=
  if ¬ cacheContains svc patient_id then -1
  else
    let sorted_patients :=
      svc.queue_cache.insertionSort (fun a b => b.2.priority ≤ a.2.priority)
    match sorted_patients.findIdx? (fun e => e.1 = patient_id) with
    | some i => (i : ℤ) + 1
    | none => -1

/-- `get_estimated_wait_time`; the source's default `avg_treatment_time` is 30
and every caller uses it. -/
def get_estimated_wait_time (svc : WaitingRoomService) (patient_id : Nat)
    (avg_treatment_time : ℤ) : Option ℤ :=
  if ¬ cacheContains svc patient_id then none
  else some ((get_position_in_queue svc patient_id - 1) * avg_treatment_time)

/-- `add_to_waiting_room`.  A raised `ValueError` is an `.error` result and, the
raise occurring before any mutation, leaves the service state unchanged.  Note
the enqueue stores `-priority_score` (the source's
"negative priority for max heap behavior" line). -/
def add_to_waiting_room (svc : WaitingRoomService) (patient_id : Nat)
    (priority_score : ℚ) (db : Nat → Option PatientRec) (now : Nat) :
    WaitingRoomService × Except WRError AddResult :=
  if cacheContains svc patient_id then (svc, .error .duplicateEntry)
  else
    match db patient_id with
    | none => (svc, .error .patientNotFound)
    | some patient =>
      let queue := PriorityQueue.enqueue svc.waiting_queue patient_id (-priority_score)
      let entry : CacheEntry :=
        ⟨priority_score, now, patient.name, patient.esi_level, patient.created_at⟩
      let svc' : WaitingRoomService := ⟨queue, svc.queue_cache ++ [(patient_id, entry)]⟩
      let position := get_position_in_queue svc' patient_id
      (svc', .ok ⟨patient_id, patient.name, priority_score, position,
        PriorityQueue.size svc'.waiting_queue,
        get_estimated_wait_time svc' patient_id 30⟩)

/-- `get_next_patient`: dequeue (which, in the source, does not remove the
entry from the backing deque) and delete the returned id from the cache. -/
def get_next_patient (svc : WaitingRoomService) :
    WaitingRoomService × Option Nat :=
  if PriorityQueue.is_empty svc.waiting_queue then (svc, none)
  else
    match PriorityQueue.dequeue svc.waiting_queue with
    | none => (svc, none)
    | some patient_id =>
      (⟨svc.waiting_queue, svc.queue_cache.filter (fun e => e.1 ≠ patient_id)⟩,
        some patient_id)

end WaitingRoomService

/-! ## `backend/app/core/heap.py` — class `MaxHeap`

The backing array is a `List HeapEntry` of `(priority, patient_id,
clinical_data)` triples compared solely by priority.  Reads `heap[i][0]` are
modelled by the total `priAt` (defaulting out-of-bounds reads to 0; every
reachable call is in bounds, matching the source's unguarded accesses never
raising `IndexError`), and `_swap` by `swap` below. -/

structure HeapEntry where
  priority : ℚ
  patient_id : Nat
  clinical_data : Nat
deriving DecidableEq

namespace MaxHeap

/-- `self.heap[i][0]`, the priority stored at index `i`. -/
def priAt (l : List HeapEntry) (i : Nat) : ℚ :=
  match l[i]? with
  | some e => e.priority
  | none => 0

/-- `_swap(i, j)`. -/
def swap (l : List HeapEntry) (i j : Nat) : List HeapEntry :=
  match l[i]?, l[j]? with
  | some a, some b => (l.set i b).set j a
  | _, _ => l

/-- `_heapify_up`: while `index > 0`, swap with the parent `(index-1)//2` as
long as the entry's priority exceeds the parent's. -/
def heapify_up (l : List HeapEntry) (i : Nat) : List HeapEntry :=
  if 0 < i then
    let parent := (i - 1) / 2
    if priAt l i > priAt l parent then heapify_up (swap l i parent) parent
    else l
  else l
termination_by i
decreasing_by
  have : (i - 1) / 2 ≤ i - 1 := Nat.div_le_self _ _
  omega

theorem length_swap (l : List HeapEntry) (i j : Nat) :
    (swap l i j).length = l.length := by
  unfold swap
  split <;> simp

/-- The `largest` index computed by one iteration of `_heapify_down`'s loop
body: the in-bounds child with the strictly largest priority, else `i`. -/
def downLargest (l : List HeapEntry) (i : Nat) : Nat :=
  let size := l.length
  let left := 2 * i + 1
  let right := 2 * i + 2
  let largest₁ := if left < size ∧ priAt l left > priAt l i then left else i
  if right < size ∧ priAt l right > priAt l largest₁ then right else largest₁

theorem downLargest_eq_or (l : List HeapEntry) (i : Nat) :
    downLargest l i = i ∨ (i < downLargest l i ∧ downLargest l i < l.length) := by
  unfold downLargest
  simp only []
  split_ifs with h1 h2 h3 <;> omega

/-- `_heapify_down`: pick the largest of the entry and its (in-bounds)
children, swap down while a child is strictly larger. -/
def heapify_down (l : List HeapEntry) (i : Nat) : List HeapEntry :=
  let largest := downLargest l i
  if largest ≠ i then heapify_down (swap l i largest) largest else l
termination_by l.length - i
decreasing_by
  rw [length_swap]
  rcases downLargest_eq_or l i with h | h
  · omega
  · omega

def push (l : List HeapEntry) (priority : ℚ) (patient_id clinical_data : Nat) :
    List HeapEntry :=
  let l' := l ++ [⟨priority, patient_id, clinical_data⟩]
  heapify_up l' (l'.length - 1)

/-- `pop`: `None` on empty; on a singleton remove and return it; otherwise
save the root, move the popped last leaf to index 0 and sift down. -/
def pop (l : List HeapEntry) : Option HeapEntry × List HeapEntry :=
  match l with
  | [] => (none, [])
  | [e] => (some e, [])
  | e :: b :: rest =>
    let last := (b :: rest).getLast (by simp)
    let l2 := (e :: b :: rest).dropLast.set 0 last
    (some e, heapify_down l2 0)

def peek (l : List HeapEntry) : Option HeapEntry :=
  l.head?

def is_empty (l : List HeapEntry) : Bool :=
  l.length = 0

def size (l : List HeapEntry) : Nat :=
  l.length

/-- `update_priority`: linear scan for the first entry with the given
patient id; overwrite its priority (and payload, when one is supplied — the
source's truthiness test on `new_clinical_data` is modelled as a `None`
test, the payload being opaque here), then re-heapify in both directions.
Returns whether an entry was found. -/
def update_priority (l : List HeapEntry) (patient_id : Nat) (new_priority : ℚ)
    (new_clinical_data : Option Nat) : Bool × List HeapEntry :=
  match l.findIdx? (fun e => e.patient_id = patient_id) with
  | none => (false, l)
  | some i =>
    match l[i]? with
    | none => (false, l)
    | some old =>
      let entry : HeapEntry :=
        ⟨new_priority, patient_id,
          match new_clinical_data with
          | some d => d
          | none => old.clinical_data⟩
      let l' := l.set i entry
      (true, heapify_down (heapify_up l' i) i)

/-- The max-heap invariant: every non-root entry's priority is at most its
parent's. -/
def IsHeap (l : List HeapEntry) : Prop :=
  ∀ i : Nat, 0 < i → i < l.length → priAt l i ≤ priAt l ((i - 1) / 2)

/-! ### Basic lemmas about `priAt` and `swap` -/

theorem priAt_of_getElem? {l : List HeapEntry} {i : Nat} {e : HeapEntry}
    (h : l[i]? = some e) : priAt l i = e.priority := by
  unfold priAt
  rw [h]

theorem priAt_of_lt {l : List HeapEntry} {i : Nat} (h : i < l.length) :
    priAt l i = (l.get ⟨i, h⟩).priority := by
  unfold priAt
  rw [List.getElem?_eq_getElem h]
  simp

theorem swap_of_lt {l : List HeapEntry} {i j : Nat} (hi : i < l.length)
    (hj : j < l.length) :
    swap l i j = (l.set i (l.get ⟨j, hj⟩)).set j (l.get ⟨i, hi⟩) := by
  unfold swap
  rw [List.getElem?_eq_getElem hi, List.getElem?_eq_getElem hj]
  simp

theorem priAt_swap {l : List HeapEntry} {i j : Nat} (hi : i < l.length)
    (hj : j < l.length) (k : Nat) :
    priAt (swap l i j) k =
      if k = j then priAt l i else if k = i then priAt l j else priAt l k := by
  rw [swap_of_lt hi hj]
  by_cases hkj : k = j
  · subst hkj
    have hset : ((l.set i (l.get ⟨k, hj⟩)).set k (l.get ⟨i, hi⟩))[k]? =
        some (l.get ⟨i, hi⟩) :=
      List.getElem?_set_self (by simpa using hj)
    rw [priAt_of_getElem? hset, priAt_of_lt hi]
    simp
  · by_cases hki : k = i
    · subst hki
      have hset : ((l.set k (l.get ⟨j, hj⟩)).set j (l.get ⟨k, hi⟩))[k]? =
          some (l.get ⟨j, hj⟩) := by
        rw [List.getElem?_set_ne (show j ≠ k from fun h => hkj h.symm)]
        exact List.getElem?_set_self (by simpa using hi)
      rw [priAt_of_getElem? hset, priAt_of_lt hj]
      simp [hkj]
    · have hset : ((l.set i (l.get ⟨j, hj⟩)).set j (l.get ⟨i, hi⟩))[k]? = l[k]? := by
        rw [List.getElem?_set_ne (show j ≠ k from fun h => hkj h.symm),
          List.getElem?_set_ne (show i ≠ k from fun h => hki h.symm)]
      have hpr : priAt ((l.set i (l.get ⟨j, hj⟩)).set j (l.get ⟨i, hi⟩)) k =
          priAt l k := by
        unfold priAt
        rw [hset]
      rw [hpr]
      simp [hkj, hki]

theorem priAt_swap_left {l : List HeapEntry} {i j : Nat} (hi : i < l.length)
    (hj : j < l.length) : priAt (swap l i j) j = priAt l i := by
  rw [priAt_swap hi hj]
  simp

theorem priAt_swap_other {l : List HeapEntry} {i j k : Nat} (hi : i < l.length)
    (hj : j < l.length) (h1 : k ≠ i) (h2 : k ≠ j) :
    priAt (swap l i j) k = priAt l k := by
  rw [priAt_swap hi hj]
  simp [h1, h2]

/-- Replacing an element and consing the old one is a permutation of consing
the new one. -/
theorem set_cons_perm (xs : List HeapEntry) : ∀ (m : Nat) (hm : m < xs.length)
    (b : HeapEntry), ((xs.get ⟨m, hm⟩) :: xs.set m b).Perm (b :: xs) := by
  induction xs with
  | nil =>
    intro m hm b
    simp at hm
  | cons x t ih =>
    intro m hm b
    cases m with
    | zero => simpa using List.Perm.swap b x t
    | succ m =>
      have hm2 : m < t.length := by simpa using hm
      have h1 : ((x :: t).get ⟨m + 1, hm⟩ :: (x :: t).set (m + 1) b) =
          (t.get ⟨m, hm2⟩ :: x :: t.set m b) := by simp
      rw [h1]
      refine (List.Perm.swap x _ _).trans ?_
      refine ((ih m hm2 b).cons x).trans ?_
      exact List.Perm.swap b x t

theorem get_of_getElem? {l : List HeapEntry} {i : Nat} {e : HeapEntry}
    (h : l[i]? = some e) (hi : i < l.length) : l.get ⟨i, hi⟩ = e := by
  have h2 := List.getElem?_eq_getElem hi
  rw [h] at h2
  simpa using (Option.some.inj h2).symm

theorem swap_perm : ∀ (l : List HeapEntry) (i j : Nat), (swap l i j).Perm l := by
  intro l i j
  unfold swap
  split
  case h_1 a b hia hjb =>
    have hi : i < l.length := by
      by_contra hlt
      rw [List.getElem?_eq_none (by omega)] at hia
      exact Option.noConfusion hia
    have hj : j < l.length := by
      by_contra hlt
      rw [List.getElem?_eq_none (by omega)] at hjb
      exact Option.noConfusion hjb
    have hga : l.get ⟨i, hi⟩ = a := get_of_getElem? hia hi
    by_cases hij : j = i
    · subst hij
      have hab : a = b := by
        rw [hia] at hjb
        exact Option.some.inj hjb
      subst hab
      rw [List.set_set]
      have base := set_cons_perm l j hj a
      rw [hga] at base
      exact base.cons_inv
    · have hj1 : j < (l.set i b).length := by simpa using hj
      have fact2 := set_cons_perm (l.set i b) j hj1 a
      have hgb : (l.set i b).get ⟨j, hj1⟩ = b := by
        have hz : (l.set i b).get ⟨j, hj1⟩ = l.get ⟨j, hj⟩ := by
          simp [List.get_eq_getElem,
            List.getElem_set_ne (show i ≠ j from fun h => hij h.symm)]
        rw [hz]
        exact get_of_getElem? hjb hj
      rw [hgb] at fact2
      have fact1 := set_cons_perm l i hi b
      rw [hga] at fact1
      exact (fact2.trans fact1).cons_inv
  case h_2 => exact List.Perm.refl l

/-! ### The sift operations restore the heap invariant -/

/-- Precondition of `_heapify_up` at index `i`: all parent/child pairs not
involving `i` are ordered, and the children of `i` (if any) are bounded both
by `i`'s entry and by `i`'s parent's entry. -/
def Iup (l : List HeapEntry) (i : Nat) : Prop :=
  (∀ j, 0 < j → j < l.length → j ≠ i → (j - 1) / 2 ≠ i →
    priAt l j ≤ priAt l ((j - 1) / 2)) ∧
  (0 < i → ∀ c, 0 < c → c < l.length → (c - 1) / 2 = i →
    priAt l c ≤ priAt l ((i - 1) / 2)) ∧
  (∀ c, 0 < c → c < l.length → (c - 1) / 2 = i → priAt l c ≤ priAt l i)

theorem heapify_up_isHeap (i : Nat) :
    ∀ (l : List HeapEntry), i < l.length → Iup l i → IsHeap (heapify_up l i) := by
  induction i using Nat.strong_induction_on with
  | _ i ih =>
    intro l hi hIup
    obtain ⟨h1, h2, h3⟩ := hIup
    unfold heapify_up
    by_cases h0 : 0 < i
    · simp only [h0, if_true]
      have hpar_lt : (i - 1) / 2 < i := by omega
      have hp : (i - 1) / 2 < l.length := lt_trans hpar_lt hi
      by_cases hgt : priAt l i > priAt l ((i - 1) / 2)
      · simp only [hgt, if_true]
        set p := (i - 1) / 2 with hpdef
        have hlen : (swap l i p).length = l.length := length_swap l i p
        apply ih p hpar_lt (swap l i p) (by omega)
        have hπ : ∀ k, priAt (swap l i p) k =
            if k = p then priAt l i else if k = i then priAt l p else priAt l k :=
          priAt_swap hi hp
        refine ⟨?_, ?_, ?_⟩
        · intro j hj0 hjlen hjp hjparp
          rw [hlen] at hjlen
          have hji : j ≠ i := by
            intro hji
            subst hji
            exact hjparp rfl
          rw [hπ j, if_neg hjp, if_neg hji]
          by_cases hpj : (j - 1) / 2 = i
          · rw [hpj, hπ i, if_neg (by omega), if_pos rfl]
            exact h2 h0 j hj0 hjlen hpj
          · rw [hπ ((j - 1) / 2), if_neg hjparp, if_neg hpj]
            exact h1 j hj0 hjlen hji hpj
        · intro hp0 c hc0 hclen hcp
          rw [hlen] at hclen
          have hgp_lt : (p - 1) / 2 < p := by omega
          have hgpi : (p - 1) / 2 ≠ i := by omega
          have hgpp : (p - 1) / 2 ≠ p := by omega
          rw [hπ ((p - 1) / 2), if_neg hgpp, if_neg hgpi]
          have hps : priAt l p ≤ priAt l ((p - 1) / 2) :=
            h1 p hp0 hp (by omega) hgpi
          by_cases hci : c = i
          · subst hci
            rw [hπ c, if_neg (by omega), if_pos rfl]
            exact hps
          · have hcp' : c ≠ p := by omega
            rw [hπ c, if_neg hcp', if_neg hci]
            have hclep : priAt l c ≤ priAt l p := by
              have := h1 c hc0 hclen hci (by omega)
              rwa [hcp] at this
            exact le_trans hclep hps
        · intro c hc0 hclen hcp
          rw [hlen] at hclen
          rw [hπ p, if_pos rfl]
          by_cases hci : c = i
          · subst hci
            rw [hπ c, if_neg (by omega), if_pos rfl]
            exact le_of_lt hgt
          · have hcp' : c ≠ p := by omega
            rw [hπ c, if_neg hcp', if_neg hci]
            have hclep : priAt l c ≤ priAt l p := by
              have := h1 c hc0 hclen hci (by omega)
              rwa [hcp] at this
            exact le_trans hclep (le_of_lt hgt)
      · simp only [hgt, if_false]
        intro j hj0 hjlen
        by_cases hji : j = i
        · subst hji
          exact not_lt.mp hgt
        · by_cases hpj : (j - 1) / 2 = i
          · rw [hpj]
            exact h3 j hj0 hjlen hpj
          · exact h1 j hj0 hjlen hji hpj
    · simp only [h0, if_false]
      intro j hj0 hjlen
      by_cases hpj : (j - 1) / 2 = i
      · rw [hpj]
        exact h3 j hj0 hjlen hpj
      · exact h1 j hj0 hjlen (by omega) hpj

/-- Precondition of `_heapify_down` at index `i`: all parent/child pairs whose
child is not a child of `i` are ordered, and the children of `i` are bounded
by `i`'s parent's entry. -/
def Idown (l : List HeapEntry) (i : Nat) : Prop :=
  (∀ j, 0 < j → j < l.length → (j - 1) / 2 ≠ i →
    priAt l j ≤ priAt l ((j - 1) / 2)) ∧
  (0 < i → ∀ c, 0 < c → c < l.length → (c - 1) / 2 = i →
    priAt l c ≤ priAt l ((i - 1) / 2))

/-- Case analysis on `downLargest`. -/
theorem downLargest_spec (l : List HeapEntry) (i : Nat) :
    (downLargest l i = i ∧
      (2 * i + 1 < l.length → priAt l (2 * i + 1) ≤ priAt l i) ∧
      (2 * i + 2 < l.length → priAt l (2 * i + 2) ≤ priAt l i)) ∨
    (downLargest l i < l.length ∧
      (downLargest l i = 2 * i + 1 ∨ downLargest l i = 2 * i + 2) ∧
      priAt l i < priAt l (downLargest l i) ∧
      (2 * i + 1 < l.length → priAt l (2 * i + 1) ≤ priAt l (downLargest l i)) ∧
      (2 * i + 2 < l.length → priAt l (2 * i + 2) ≤ priAt l (downLargest l i))) := by
  unfold downLargest
  simp only []
  split_ifs with h1 h2 h3
  · right
    exact ⟨h2.1, Or.inr rfl, lt_trans h1.2 h2.2, fun _ => le_of_lt h2.2,
      fun _ => le_refl _⟩
  · right
    refine ⟨h1.1, Or.inl rfl, h1.2, fun _ => le_refl _, fun hr => ?_⟩
    by_contra hlt
    exact h2 ⟨hr, lt_of_not_le hlt⟩
  · right
    refine ⟨h3.1, Or.inr rfl, h3.2, fun hl => ?_, fun _ => le_refl _⟩
    have : ¬ priAt l (2 * i + 1) > priAt l i := fun hgt => h1 ⟨hl, hgt⟩
    exact le_trans (not_lt.mp this) (le_of_lt h3.2)
  · left
    refine ⟨rfl, fun hl => ?_, fun hr => ?_⟩
    · exact not_lt.mp (fun hgt => h1 ⟨hl, hgt⟩)
    · exact not_lt.mp (fun hgt => h3 ⟨hr, hgt⟩)

theorem heapify_down_isHeap_aux :
    ∀ (m : Nat) (l : List HeapEntry) (i : Nat), l.length - i ≤ m →
      Idown l i → IsHeap (heapify_down l i) := by
  intro m
  induction m with
  | zero =>
    intro l i hm hId
    obtain ⟨h1, -⟩ := hId
    unfold heapify_down
    rcases downLargest_spec l i with ⟨heq, _, _⟩ | ⟨hlt, hor, _⟩
    · simp only [heq, ne_eq, not_true_eq_false, if_false]
      intro j hj0 hjlen
      have : (j - 1) / 2 ≠ i := by omega
      exact h1 j hj0 hjlen this
    · omega
  | succ m ih =>
    intro l i hm hId
    obtain ⟨h1, h2⟩ := hId
    unfold heapify_down
    rcases downLargest_spec l i with ⟨heq, hbl, hbr⟩ | ⟨hlt, hor, hgt, hbl, hbr⟩
    · simp only [heq, ne_eq, not_true_eq_false, if_false]
      intro j hj0 hjlen
      by_cases hpj : (j - 1) / 2 = i
      · rw [hpj]
        have : j = 2 * i + 1 ∨ j = 2 * i + 2 := by omega
        rcases this with hj | hj
        · subst hj; exact hbl hjlen
        · subst hj; exact hbr hjlen
      · exact h1 j hj0 hjlen hpj
    · set d := downLargest l i with hd
      have hdi : d ≠ i := by omega
      have hi : i < l.length := by omega
      simp only [ne_eq, hdi, not_false_eq_true, if_true]
      have hlen : (swap l i d).length = l.length := length_swap l i d
      have hπ : ∀ k, priAt (swap l i d) k =
          if k = d then priAt l i else if k = i then priAt l d else priAt l k :=
        priAt_swap hi hlt
      have hpard : (d - 1) / 2 = i := by omega
      apply ih (swap l i d) d (by omega)
      refine ⟨?_, ?_⟩
      · intro j hj0 hjlen hjpard
        rw [hlen] at hjlen
        by_cases hjd : j = d
        · subst hjd
          rw [hπ d, if_pos rfl, hpard, hπ i, if_neg (Ne.symm hdi), if_pos rfl]
          exact le_of_lt hgt
        · by_cases hji : j = i
          · have hj_par_ne_d : (j - 1) / 2 ≠ d := by omega
            have hj_par_ne_i : (j - 1) / 2 ≠ i := by omega
            rw [hπ j, if_neg hjd, if_pos hji, hπ ((j - 1) / 2),
              if_neg hj_par_ne_d, if_neg hj_par_ne_i]
            have hres := h2 (by omega) d (by omega) hlt hpard
            rw [show (j - 1) / 2 = (i - 1) / 2 from by omega]
            exact hres
          · rw [hπ j, if_neg hjd, if_neg hji]
            by_cases hpj : (j - 1) / 2 = i
            · rw [hpj, hπ i, if_neg (by omega), if_pos rfl]
              have : j = 2 * i + 1 ∨ j = 2 * i + 2 := by omega
              rcases this with hj | hj
              · subst hj; exact hbl hjlen
              · subst hj; exact hbr hjlen
            · rw [hπ ((j - 1) / 2), if_neg hjpard, if_neg hpj]
              exact h1 j hj0 hjlen hpj
      · intro hd0 c hc0 hclen hcpard
        rw [hlen] at hclen
        have hcd : c ≠ d := by omega
        have hci : c ≠ i := by omega
        rw [hπ c, if_neg hcd, if_neg hci, hpard, hπ i, if_neg (by omega),
          if_pos rfl]
        have := h1 c hc0 hclen (by omega)
        rwa [hcpard] at this

theorem heapify_down_isHeap (l : List HeapEntry) (i : Nat) (h : Idown l i) :
    IsHeap (heapify_down l i) :=
  heapify_down_isHeap_aux (l.length - i) l i le_rfl h

/-- Sifting down any index of a proper heap is the identity. -/
theorem heapify_down_of_isHeap (l : List HeapEntry) (i : Nat) (h : IsHeap l) :
    heapify_down l i = l := by
  unfold heapify_down
  rcases downLargest_spec l i with ⟨heq, _, _⟩ | ⟨hlt, hor, hgt, _, _⟩
  · simp [heq]
  · exfalso
    have hd0 : 0 < downLargest l i := by omega
    have := h (downLargest l i) hd0 hlt
    have hpar : (downLargest l i - 1) / 2 = i := by omega
    rw [hpar] at this
    exact absurd hgt (not_lt.mpr this)

/-- If the entry at `i` does not exceed its parent, `_heapify_up` is the
identity. -/
theorem heapify_up_of_le (l : List HeapEntry) (i : Nat)
    (h : ¬ priAt l i > priAt l ((i - 1) / 2)) : heapify_up l i = l := by
  unfold heapify_up
  by_cases h0 : 0 < i
  · simp [h0, h]
  · simp [h0]

/-! ### The operations permute the entries -/

theorem heapify_up_perm (i : Nat) : ∀ l : List HeapEntry,
    (heapify_up l i).Perm l := by
  induction i using Nat.strong_induction_on with
  | _ i ih =>
    intro l
    unfold heapify_up
    by_cases h0 : 0 < i
    · simp only [h0, if_true]
      by_cases hgt : priAt l i > priAt l ((i - 1) / 2)
      · simp only [hgt, if_true]
        exact (ih ((i - 1) / 2) (by omega) _).trans (swap_perm l i _)
      · simp [hgt]
    · simp [h0]

theorem heapify_down_perm_aux : ∀ (m : Nat) (l : List HeapEntry) (i : Nat),
    l.length - i ≤ m → (heapify_down l i).Perm l := by
  intro m
  induction m with
  | zero =>
    intro l i hm
    unfold heapify_down
    rcases downLargest_spec l i with ⟨heq, _, _⟩ | ⟨hlt, _, _, _, _⟩
    · simp [heq]
    · omega
  | succ m ih =>
    intro l i hm
    unfold heapify_down
    rcases downLargest_spec l i with ⟨heq, _, _⟩ | ⟨hlt, hor, _, _, _⟩
    · simp [heq]
    · have hdi : downLargest l i ≠ i := by omega
      simp only [ne_eq, hdi, not_false_eq_true, if_true]
      have hlen := length_swap l i (downLargest l i)
      refine (ih _ _ ?_).trans (swap_perm l i _)
      omega

theorem heapify_down_perm (l : List HeapEntry) (i : Nat) :
    (heapify_down l i).Perm l :=
  heapify_down_perm_aux (l.length - i) l i le_rfl

theorem length_heapify_up (l : List HeapEntry) (i : Nat) :
    (heapify_up l i).length = l.length :=
  (heapify_up_perm i l).length_eq

theorem length_heapify_down (l : List HeapEntry) (i : Nat) :
    (heapify_down l i).length = l.length :=
  (heapify_down_perm l i).length_eq

/-! ### `priAt` and list surgery -/

theorem priAt_append {l l2 : List HeapEntry} {k : Nat} (hk : k < l.length) :
    priAt (l ++ l2) k = priAt l k := by
  unfold priAt
  rw [List.getElem?_append, if_pos hk]

theorem priAt_set_self {l : List HeapEntry} {i : Nat} (hi : i < l.length)
    (e : HeapEntry) : priAt (l.set i e) i = e.priority :=
  priAt_of_getElem? (List.getElem?_set_self hi)

theorem priAt_set_other (l : List HeapEntry) (i k : Nat) (e : HeapEntry)
    (h : k ≠ i) : priAt (l.set i e) k = priAt l k := by
  unfold priAt
  rw [List.getElem?_set_ne (Ne.symm h)]

/-! ### `push`, `pop` and `update_priority` preserve the invariant -/

theorem push_isHeap (l : List HeapEntry) (p : ℚ) (pid d : Nat)
    (h : IsHeap l) : IsHeap (push l p pid d) := by
  unfold push
  simp only []
  have hidx : (l ++ [(⟨p, pid, d⟩ : HeapEntry)]).length - 1 = l.length := by simp
  rw [hidx]
  apply heapify_up_isHeap l.length _ (by simp)
  refine ⟨?_, ?_, ?_⟩
  · intro j hj0 hjlen hji _
    have hjl : j < l.length := by
      simp only [List.length_append, List.length_cons, List.length_nil] at hjlen
      omega
    have hpl : (j - 1) / 2 < l.length := by omega
    rw [priAt_append hjl, priAt_append hpl]
    exact h j hj0 hjl
  · intro _ c hc0 hclen hcpar
    simp only [List.length_append, List.length_cons, List.length_nil] at hclen
    omega
  · intro c hc0 hclen hcpar
    simp only [List.length_append, List.length_cons, List.length_nil] at hclen
    omega

theorem pop_fst (l : List HeapEntry) : (pop l).1 = l.head? := by
  match l with
  | [] => rfl
  | [e] => rfl
  | e :: b :: rest => rfl

theorem pop_snd_perm (l : List HeapEntry) : ((pop l).2).Perm l.tail := by
  match l with
  | [] => simp [pop]
  | [e] => simp [pop]
  | e :: b :: rest =>
    unfold pop
    simp only []
    refine (heapify_down_perm _ _).trans ?_
    rw [List.dropLast_cons₂, List.set_cons_zero]
    have hsp : (b :: rest) =
        (b :: rest).dropLast ++ [(b :: rest).getLast (by simp)] :=
      (List.dropLast_concat_getLast _).symm
    simp only [List.tail_cons]
    conv_rhs => rw [hsp]
    exact (List.perm_append_singleton _ _).symm

theorem pop_isHeap (l : List HeapEntry) (h : IsHeap l) : IsHeap (pop l).2 := by
  match l with
  | [] =>
    intro j hj0 hjlen
    simp [pop] at hjlen
  | [e] =>
    intro j hj0 hjlen
    simp [pop] at hjlen
  | e :: b :: rest =>
    unfold pop
    simp only []
    apply heapify_down_isHeap
    set last := (b :: rest).getLast (by simp) with hlast
    set l2 := (e :: b :: rest).dropLast.set 0 last with hl2
    have hl2len : l2.length = rest.length + 2 - 1 := by
      rw [hl2]
      simp
    have hlen : (e :: b :: rest).length = rest.length + 2 := by simp
    have hpri : ∀ k, 0 < k → k < l2.length →
        priAt l2 k = priAt (e :: b :: rest) k := by
      intro k hk0 hklen
      rw [hl2, priAt_set_other _ _ _ _ (by omega)]
      unfold priAt
      rw [List.getElem?_dropLast]
      rw [hl2len] at hklen
      rw [if_pos (by simpa using hklen)]
    refine ⟨?_, ?_⟩
    · intro j hj0 hjlen hjpar
      have hpar0 : 0 < (j - 1) / 2 := Nat.pos_of_ne_zero hjpar
      rw [hpri j hj0 hjlen, hpri _ hpar0 (by omega)]
      exact h j hj0 (by rw [hl2len] at hjlen; simp; omega)
    · intro h0 _ _ _ _
      exact absurd h0 (lt_irrefl 0)

theorem update_priority_isHeap (l : List HeapEntry) (pid : Nat) (np : ℚ)
    (nd : Option Nat) (h : IsHeap l) : IsHeap (update_priority l pid np nd).2 := by
  unfold update_priority
  cases hfind : l.findIdx? (fun e => e.patient_id = pid) with
  | none => simpa using h
  | some i =>
    cases hget : l[i]? with
    | none =>
      simp only [hget]
      exact h
    | some old =>
      simp only [hget]
      have hi : i < l.length := by
        by_contra hlt
        rw [List.getElem?_eq_none (by omega)] at hget
        exact Option.noConfusion hget
      set entry : HeapEntry :=
        ⟨np, pid, match nd with | some d => d | none => old.clinical_data⟩
        with hentry
      set l' := l.set i entry with hl'
      show IsHeap (heapify_down (heapify_up l' i) i)
      have hl'len : l'.length = l.length := by simp [hl']
      have hself : priAt l' i = np := by
        rw [hl', priAt_set_self hi]
      have hother : ∀ k, k ≠ i → priAt l' k = priAt l k := fun k hk =>
        priAt_set_other l i k entry hk
      have hold : priAt l i = old.priority := priAt_of_getElem? hget
      by_cases hcmp : priAt l i ≤ np
      · have hIup : Iup l' i := by
          refine ⟨?_, ?_, ?_⟩
          · intro j hj0 hjlen hji hjpar
            rw [hl'len] at hjlen
            rw [hother j hji, hother _ hjpar]
            exact h j hj0 hjlen
          · intro h0 c hc0 hclen hcpar
            rw [hl'len] at hclen
            have hci : c ≠ i := by omega
            have hpari : (i - 1) / 2 ≠ i := by omega
            rw [hother c hci, hother _ hpari]
            have c1 : priAt l c ≤ priAt l i := by
              have := h c hc0 hclen
              rwa [hcpar] at this
            exact le_trans c1 (h i h0 hi)
          · intro c hc0 hclen hcpar
            rw [hl'len] at hclen
            have hci : c ≠ i := by omega
            rw [hother c hci, hself]
            have c1 : priAt l c ≤ priAt l i := by
              have := h c hc0 hclen
              rwa [hcpar] at this
            exact le_trans c1 hcmp
        have hup : IsHeap (heapify_up l' i) :=
          heapify_up_isHeap i l' (by omega) hIup
        rw [heapify_down_of_isHeap _ _ hup]
        exact hup
      · push_neg at hcmp
        have hupid : heapify_up l' i = l' := by
          apply heapify_up_of_le
          by_cases h0 : 0 < i
          · have hpari : (i - 1) / 2 ≠ i := by omega
            rw [hself, hother _ hpari]
            exact not_lt.mpr (le_of_lt (lt_of_lt_of_le hcmp (h i h0 hi)))
          · have hi0 : i = 0 := by omega
            rw [hi0]
            simp
        rw [hupid]
        apply heapify_down_isHeap
        refine ⟨?_, ?_⟩
        · intro j hj0 hjlen hjpar
          rw [hl'len] at hjlen
          by_cases hji : j = i
          · subst hji
            have hpari : (j - 1) / 2 ≠ j := by omega
            rw [hself, hother _ hpari]
            exact le_trans (le_of_lt hcmp) (h j hj0 hjlen)
          · rw [hother j hji, hother _ hjpar]
            exact h j hj0 hjlen
        · intro h0 c hc0 hclen hcpar
          rw [hl'len] at hclen
          have hci : c ≠ i := by omega
          have hpari : (i - 1) / 2 ≠ i := by omega
          rw [hother c hci, hother _ hpari]
          have c1 : priAt l c ≤ priAt l i := by
            have := h c hc0 hclen
            rwa [hcpar] at this
          exact le_trans c1 (h i h0 hi)

/-! ### Root maximality and draining the heap -/

theorem le_root_of_isHeap (l : List HeapEntry) (h : IsHeap l) :
    ∀ j, j < l.length → priAt l j ≤ priAt l 0 := by
  intro j
  induction j using Nat.strong_induction_on with
  | _ j ih =>
    intro hj
    rcases Nat.eq_zero_or_pos j with hj0 | hj0
    · subst hj0
      exact le_refl _
    · have hpar : (j - 1) / 2 < j := by omega
      exact le_trans (h j hj0 hj) (ih _ hpar (by omega))

theorem mem_priority_le_root (l : List HeapEntry) (h : IsHeap l)
    (e : HeapEntry) (he : e ∈ l) : e.priority ≤ priAt l 0 := by
  obtain ⟨j, hj, hget⟩ := List.getElem_of_mem he
  have : priAt l j = e.priority := by
    unfold priAt
    rw [List.getElem?_eq_getElem hj, hget]
  rw [← this]
  exact le_root_of_isHeap l h j hj

/-- Repeatedly pop (returning popped entries in order), with enough fuel to
drain the heap. -/
def popAllGo : Nat → List HeapEntry → List HeapEntry
  | 0, _ => []
  | n + 1, l =>
    match pop l with
    | (none, _) => []
    | (some e, rest) => e :: popAllGo n rest

def popAll (l : List HeapEntry) : List HeapEntry :=
  popAllGo l.length l

/-- The heap obtained by pushing each of `entries` in order onto an empty
heap. -/
def heapOfPushes (entries : List HeapEntry) : List HeapEntry :=
  entries.foldl (fun acc e => push acc e.priority e.patient_id e.clinical_data) []

theorem push_perm (l : List HeapEntry) (p : ℚ) (pid d : Nat) :
    (push l p pid d).Perm (l ++ [⟨p, pid, d⟩]) := by
  unfold push
  exact heapify_up_perm _ _

theorem foldl_push_perm :
    ∀ (entries l : List HeapEntry),
      (entries.foldl
        (fun acc e => push acc e.priority e.patient_id e.clinical_data) l).Perm
        (l ++ entries) := by
  intro entries
  induction entries with
  | nil =>
    intro l
    simp
  | cons e es ih =>
    intro l
    simp only [List.foldl_cons]
    refine (ih _).trans ?_
    have h1 : (push l e.priority e.patient_id e.clinical_data).Perm
        (l ++ [e]) := push_perm l _ _ _
    refine (h1.append_right es).trans ?_
    simp

theorem heapOfPushes_perm (entries : List HeapEntry) :
    (heapOfPushes entries).Perm entries := by
  simpa using foldl_push_perm entries []

theorem foldl_push_isHeap :
    ∀ (entries l : List HeapEntry), IsHeap l →
      IsHeap (entries.foldl
        (fun acc e => push acc e.priority e.patient_id e.clinical_data) l) := by
  intro entries
  induction entries with
  | nil => intro l h; simpa
  | cons e es ih =>
    intro l h
    exact ih _ (push_isHeap l _ _ _ h)

theorem isHeap_nil : IsHeap [] := by
  intro j hj0 hjlen
  simp at hjlen

theorem heapOfPushes_isHeap (entries : List HeapEntry) :
    IsHeap (heapOfPushes entries) :=
  foldl_push_isHeap entries [] isHeap_nil

theorem pop_of_ne_nil (l : List HeapEntry) (_h : l ≠ []) :
    pop l = (l.head?, (pop l).2) := by
  have := pop_fst l
  exact Prod.ext this rfl

theorem popAllGo_spec :
    ∀ (n : Nat) (l : List HeapEntry), IsHeap l → l.length ≤ n →
      (popAllGo n l).Perm l ∧
        List.Sorted (fun a b : HeapEntry => b.priority ≤ a.priority)
          (popAllGo n l) := by
  intro n
  induction n with
  | zero =>
    intro l _ hlen
    have : l = [] := List.length_eq_zero.mp (by omega)
    subst this
    exact ⟨List.Perm.refl _, List.sorted_nil⟩
  | succ n ih =>
    intro l hheap hlen
    cases l with
    | nil => simp [popAllGo, pop]
    | cons e t =>
      have hne : e :: t ≠ [] := by simp
      have hpop : pop (e :: t) = (some e, (pop (e :: t)).2) := by
        rw [pop_of_ne_nil _ hne]
        simp
      have hrest_perm : ((pop (e :: t)).2).Perm t := by
        simpa using pop_snd_perm (e :: t)
      have hrest_heap : IsHeap (pop (e :: t)).2 := pop_isHeap _ hheap
      have hrest_len : ((pop (e :: t)).2).length ≤ n := by
        rw [hrest_perm.length_eq]
        simp at hlen
        omega
      obtain ⟨ihperm, ihsorted⟩ := ih _ hrest_heap hrest_len
      have hgo : popAllGo (n + 1) (e :: t) = e :: popAllGo n (pop (e :: t)).2 := by
        conv_lhs => rw [popAllGo]
        rw [hpop]
      rw [hgo]
      constructor
      · exact (ihperm.trans hrest_perm).cons e
      · rw [List.sorted_cons]
        refine ⟨?_, ihsorted⟩
        intro b hb
        have hbl : b ∈ e :: t := by
          have h1 : b ∈ (pop (e :: t)).2 := ihperm.mem_iff.mp hb
          exact List.mem_cons_of_mem e (hrest_perm.mem_iff.mp h1)
        have hroot : priAt (e :: t) 0 = e.priority :=
          priAt_of_getElem? (by simp)
        have := mem_priority_le_root (e :: t) hheap b hbl
        rwa [hroot] at this

end MaxHeap

/-- An arbitrary `MaxHeap` API call, for stating state-invariant properties
over every operation sequence. -/
inductive HeapOp where
  | push (priority : ℚ) (patient_id clinical_data : Nat)
  | pop
  | update_priority (patient_id : Nat) (new_priority : ℚ)
      (new_clinical_data : Option Nat)

def applyHeapOp (l : List HeapEntry) : HeapOp → List HeapEntry
  | .push p pid d => MaxHeap.push l p pid d
  | .pop => (MaxHeap.pop l).2
  | .update_priority pid np nd => (MaxHeap.update_priority l pid np nd).2

theorem foldl_applyHeapOp_isHeap :
    ∀ (ops : List HeapOp) (l : List HeapEntry), MaxHeap.IsHeap l →
      MaxHeap.IsHeap (ops.foldl applyHeapOp l) := by
  intro ops
  induction ops with
  | nil =>
    intro l h
    simpa
  | cons op rest ih =>
    intro l h
    apply ih
    cases op with
    | push p pid d => exact MaxHeap.push_isHeap l p pid d h
    | pop => exact MaxHeap.pop_isHeap l h
    | update_priority pid np nd =>
      exact MaxHeap.update_priority_isHeap l pid np nd h

/-! ## `backend/app/core/graph.py` — class `Graph`

`adjacency_list` is an insertion-ordered dict from vertex to list of
`(neighbor, weight)` pairs, modelled as an association list.  Vertices are
opaque identifiers modelled as `ℕ`, weights as `ℚ`.  The unguarded dict
access `self.adjacency_list[v]` (a `KeyError` when `v` is absent) is modelled
with `Except`-style results where it can fire; the `while` loops of
`shortest_path` (which can run forever, e.g. on negative cycles) and the
BFS/DFS traversals are modelled with explicit fuel, with enough fuel that
every terminating Python run is reproduced. -/

abbrev Graph : Type := List (Nat × List (Nat × ℚ))

namespace Graph

/-- `self.adjacency_list[v]` as an optional lookup. -/
def adjLookup (g : Graph) (v : Nat) : Option (List (Nat × ℚ)) :=
  ((List.find? (fun e => e.1 = v) g)).map (fun e => e.2)

/-- `v in self.adjacency_list`. -/
def isKey (g : Graph) (v : Nat) : Bool :=
  (adjLookup g v).isSome

def add_vertex (g : Graph) (v : Nat) : Graph :=
  if isKey g v then g else List.append g [(v, [])]

/-- Append `entry` to `v`'s adjacency list. -/
def adjAppend (g : Graph) (v : Nat) (entry : Nat × ℚ) : Graph :=
  List.map (fun e => if e.1 = v then (e.1, e.2 ++ [entry]) else e) g

def add_edge (g : Graph) (vertex1 vertex2 : Nat) (weight : ℚ) : Graph :=
  let g := add_vertex g vertex1
  let g := add_vertex g vertex2
  let g := adjAppend g vertex1 (vertex2, weight)
  adjAppend g vertex2 (vertex1, weight)

/-- `get_neighbors`: the adjacency list, or `[]` for an absent vertex. -/
def get_neighbors (g : Graph) (v : Nat) : List (Nat × ℚ) :=
  (adjLookup g v).getD []

def get_vertices (g : Graph) : List Nat :=
  List.map (fun e => e.1) g

/-- `get_node_connections`: 0 for an absent vertex, else the adjacency-list
length. -/
def get_node_connections (g : Graph) (v : Nat) : Nat :=
  match adjLookup g v with
  | none => 0
  | some l => l.length

/-- Total number of adjacency entries, used to size loop fuel. -/
def totalAdj (g : Graph) : Nat :=
  (List.map (fun e => e.2.length) g).sum

def graphFuel (g : Graph) : Nat :=
  List.length g + totalAdj g + 2

/-- The BFS loop over a queue of `(vertex, depth)` pairs.  Visited vertices
and the result accumulate in order; neighbors of a newly visited vertex are
appended (`adjacency_list[v]` is in bounds whenever the graph is built by
`add_vertex`/`add_edge`, so the `KeyError` case cannot fire and the total
`get_neighbors` is used). -/
def bfsLoop (g : Graph) (max_depth : Option Nat) :
    Nat → List (Nat × Nat) → List Nat → List (Nat × Nat) → List (Nat × Nat)
  | 0, _, _, result => result
  | _ + 1, [], _, result => result
  | fuel + 1, (v, depth) :: rest, visited, result =>
    if v ∈ visited then bfsLoop g max_depth fuel rest visited result
    else if (match max_depth with
        | some md => decide (depth > md)
        | none => false) then
      bfsLoop g max_depth fuel rest visited result
    else
      let visited := visited ++ [v]
      let result := result ++ [(v, depth)]
      let queue := rest ++
        (List.filter (fun p => ¬ p.1 ∈ visited) (get_neighbors g v)).map
          (fun p => (p.1, depth + 1))
      bfsLoop g max_depth fuel queue visited result

def bfs (g : Graph) (start_vertex : Nat) (max_depth : Option Nat) :
    List (Nat × Nat) :=
  if isKey g start_vertex then
    bfsLoop g max_depth (graphFuel g + totalAdj g) [(start_vertex, 0)] [] []
  else []

/- The recursive DFS.  `dfsRec` handles one vertex (mark visited, append to
the path, early-return when `end_vertex` is reached), `dfsFold` iterates over
a neighbor list.  The Boolean is the early-stop flag. -/
mutual

def dfsRec (g : Graph) (end_vertex : Option Nat) :
    Nat → Nat → List Nat → List Nat → Bool × List Nat × List Nat
  | 0, _, visited, path => (false, visited, path)
  | fuel + 1, v, visited, path =>
    let visited := visited ++ [v]
    let path := path ++ [v]
    if (match end_vertex with
        | some e => decide (v = e)
        | none => false) then
      (true, visited, path)
    else dfsFold g end_vertex fuel (get_neighbors g v) visited path

def dfsFold (g : Graph) (end_vertex : Option Nat) :
    Nat → List (Nat × ℚ) → List Nat → List Nat → Bool × List Nat × List Nat
  | _, [], visited, path => (false, visited, path)
  | fuel, (n, _) :: rest, visited, path =>
    if n ∈ visited then dfsFold g end_vertex fuel rest visited path
    else
      match dfsRec g end_vertex fuel n visited path with
      | (true, visited', path') => (true, visited', path')
      | (false, visited', path') => dfsFold g end_vertex fuel rest visited' path'

end

def dfs (g : Graph) (start_vertex : Nat) (end_vertex : Option Nat) :
    List Nat :=
  if isKey g start_vertex then
    (dfsRec g end_vertex (graphFuel g + totalAdj g) start_vertex [] []).2.2
  else []

end Graph

/-! ### `shortest_path`: Dijkstra over a `heapq` frontier

`heapq` keeps a binary min-heap of `(distance, vertex)` tuples ordered
lexicographically; its observable content is the multiset of tuples, and
`heappop` removes and returns the least tuple.  The embedding therefore keeps
the plain list: `heappush` appends and `heappop` extracts the (unique) least
tuple, removing its first occurrence. -/

/-- A computation that either produces a value, raises `KeyError`, or (a
modelling artefact with no Python counterpart) runs out of fuel — the Python
loop would still be running. -/
inductive PyResult (α : Type) where
  | ok (val : α)
  | keyError
  | outOfFuel
deriving DecidableEq

namespace Graph

/-- The smaller of two tuples in the lexicographic `(distance, vertex)`
order. -/
def lexMin (x y : ℚ × Nat) : ℚ × Nat :=
  if y.1 < x.1 ∨ (y.1 = x.1 ∧ y.2 < x.2) then y else x

def heapMin : ℚ × Nat → List (ℚ × Nat) → ℚ × Nat
  | x, [] => x
  | x, y :: ys => heapMin (lexMin x y) ys

/-- Remove the first occurrence of `m`. -/
def removeFirst : List (ℚ × Nat) → (ℚ × Nat) → List (ℚ × Nat)
  | [], _ => []
  | x :: xs, m => if x = m then xs else x :: removeFirst xs m

/-- `heapq.heappop`: the least tuple and the queue without (one occurrence
of) it. -/
def heappop (q : List (ℚ × Nat)) : Option ((ℚ × Nat) × List (ℚ × Nat)) :=
  match q with
  | [] => none
  | x :: xs =>
    let m := heapMin x xs
    some (m, removeFirst q m)

/-- The Dijkstra working state: the `distances` and `previous_vertices` dicts
and the `heapq` frontier. -/
structure DState where
  distances : Nat → Option (WithTop ℚ)
  previous_vertices : Nat → Option Nat
  priority_queue : List (ℚ × Nat)

/-- The `for neighbor, weight in self.adjacency_list[current_vertex]`
relaxation loop. -/
def relaxAll (current_distance : ℚ) (current_vertex : Nat) :
    List (Nat × ℚ) → DState → PyResult DState
  | [], st => .ok st
  | (neighbor, weight) :: rest, st =>
    let distance := current_distance + weight
    match st.distances neighbor with
    | none => .keyError
    | some dn =>
      if ((distance : ℚ) : WithTop ℚ) < dn then
        relaxAll current_distance current_vertex rest
          ⟨Function.update st.distances neighbor
             (some ((distance : ℚ) : WithTop ℚ)),
           Function.update st.previous_vertices neighbor (some current_vertex),
           st.priority_queue ++ [(distance, neighbor)]⟩
      else relaxAll current_distance current_vertex rest st

/-- The `while priority_queue:` loop. -/
def dijkstraLoop (g : Graph) : Nat → DState → PyResult DState
  | 0, st => if st.priority_queue.isEmpty then .ok st else .outOfFuel
  | fuel + 1, st =>
    match heappop st.priority_queue with
    | none => .ok st
    | some ((current_distance, current_vertex), rest) =>
      let st1 : DState := ⟨st.distances, st.previous_vertices, rest⟩
      match st1.distances current_vertex with
      | none => .keyError
      | some dcur =>
        if ((current_distance : ℚ) : WithTop ℚ) > dcur then dijkstraLoop g fuel st1
        else
          match adjLookup g current_vertex with
          | none => .keyError
          | some neighbors =>
            match relaxAll current_distance current_vertex neighbors st1 with
            | .ok st2 => dijkstraLoop g fuel st2
            | .keyError => .keyError
            | .outOfFuel => .outOfFuel

/-- The path-reconstruction `while current_vertex != start:` loop. -/
def reconstruct (previous_vertices : Nat → Option Nat) (start : Nat) :
    Nat → Nat → List Nat → Option (List Nat)
  | 0, _, _ => none
  | fuel + 1, current_vertex, path =>
    if current_vertex = start then some (start :: path)
    else
      match previous_vertices current_vertex with
      | none => some []
      | some c => reconstruct previous_vertices start fuel c (current_vertex :: path)

/-- The initial state: every vertex at infinity, `start` at 0 (the dict
assignment `distances[start] = 0` creates the key even for an absent
`start`), an empty `previous_vertices` dict, and the frontier `[(0, start)]`. -/
def dijkstraInit (g : Graph) (start : Nat) : DState :=
  ⟨fun v => if v = start then some ((0 : ℚ) : WithTop ℚ)
            else if isKey g v then some ⊤ else none,
   fun _ => none,
   [((0 : ℚ), start)]⟩

def shortest_path (g : Graph) (start finish : Nat) : PyResult (List Nat) :=
  match dijkstraLoop g (totalAdj g + 2) (dijkstraInit g start) with
  | .ok st =>
    match reconstruct st.previous_vertices start (List.length g + 1) finish [] with
    | some path => .ok path
    | none => .outOfFuel
  | .keyError => .keyError
  | .outOfFuel => .outOfFuel

end Graph

/-! ### Well-formed graphs, walks, and the Dijkstra invariants -/

namespace Graph

/-- Occurrence count of a tuple, kept instance-free. -/
def countPair (q : List (ℚ × Nat)) (m : ℚ × Nat) : Nat :=
  (q.filter (fun p => p = m)).length

/-- Well-formedness maintained by `add_vertex`/`add_edge`: dict keys are
unique and every neighbor mentioned in an adjacency list is itself a key. -/
def WFGraph (g : Graph) : Prop :=
  List.Pairwise (fun a b => a.1 ≠ b.1) g ∧
    ∀ e ∈ g, ∀ p ∈ e.2, isKey g p.1 = true

def NonNegWeights (g : Graph) : Prop :=
  ∀ e ∈ g, ∀ p ∈ e.2, 0 ≤ p.2

theorem mem_get_neighbors {g : Graph} {u : Nat} {p : Nat × ℚ}
    (h : p ∈ get_neighbors g u) :
    ∃ e ∈ g, e.1 = u ∧ e.2 = get_neighbors g u := by
  unfold get_neighbors adjLookup at h ⊢
  cases hf : List.find? (fun e => e.1 = u) g with
  | none =>
    rw [hf] at h
    simp at h
  | some e =>
    refine ⟨e, List.mem_of_find?_eq_some hf, ?_, ?_⟩
    · have := List.find?_some hf
      simpa using this
    · simp

theorem key_of_mem_neighbors {g : Graph} (hWF : WFGraph g) {u : Nat}
    {p : Nat × ℚ} (h : p ∈ get_neighbors g u) : isKey g p.1 = true := by
  obtain ⟨e, he, -, hadj⟩ := mem_get_neighbors h
  exact hWF.2 e he p (by rw [hadj]; exact h)

theorem key_of_neighbors_ne_nil {g : Graph} {u : Nat} {p : Nat × ℚ}
    (h : p ∈ get_neighbors g u) : isKey g u = true := by
  unfold get_neighbors at h
  unfold isKey
  cases hf : adjLookup g u with
  | none =>
    rw [hf] at h
    simp at h
  | some l => simp

theorem nonneg_of_mem_neighbors {g : Graph} (hNN : NonNegWeights g) {u : Nat}
    {p : Nat × ℚ} (h : p ∈ get_neighbors g u) : 0 ≤ p.2 := by
  obtain ⟨e, he, -, hadj⟩ := mem_get_neighbors h
  exact hNN e he p (by rw [hadj]; exact h)

/-- A walk in the graph from `u` to `w` of total weight `q`, following
adjacency entries. -/
inductive Walk (g : Graph) : Nat → Nat → ℚ → Prop where
  | nil (v : Nat) (hv : isKey g v = true) : Walk g v v 0
  | cons (u v w : Nat) (wt q : ℚ) (he : (v, wt) ∈ get_neighbors g u)
      (hrest : Walk g v w q) : Walk g u w (wt + q)

def Reachable (g : Graph) (u w : Nat) : Prop :=
  ∃ q, Walk g u w q

theorem Walk.key_right {g : Graph} {u w : Nat} {q : ℚ} (h : Walk g u w q) :
    isKey g w = true := by
  induction h with
  | nil v hv => exact hv
  | cons _ _ _ _ _ _ _ ih => exact ih

theorem Walk.append_edge {g : Graph} {s m x : Nat} {q1 wt : ℚ}
    (hWF : WFGraph g) (hw : Walk g s m q1)
    (he : (x, wt) ∈ get_neighbors g m) : Walk g s x (q1 + wt) := by
  induction hw with
  | nil v hv =>
    have hx : isKey g x = true := key_of_mem_neighbors hWF he
    have := Walk.cons v x x wt 0 he (Walk.nil x hx)
    simpa using this
  | cons u v w wt' q' he' hrest ih =>
    have := Walk.cons u v x wt' (q' + wt) he' (ih he)
    rw [← add_assoc] at this
    exact this

theorem Walk.nonneg {g : Graph} (hNN : NonNegWeights g) {u w : Nat} {q : ℚ}
    (h : Walk g u w q) : 0 ≤ q := by
  induction h with
  | nil v hv => exact le_refl 0
  | cons u v w wt q he hrest ih =>
    have := nonneg_of_mem_neighbors hNN he
    have h2 : (0 : ℚ) ≤ wt := by simpa using this
    linarith

/-- A vertex list that is a walk in the graph, with its total weight. -/
inductive ListWalk (g : Graph) : List Nat → ℚ → Prop where
  | single (v : Nat) (hv : isKey g v = true) : ListWalk g [v] 0
  | cons (u v : Nat) (wt q : ℚ) (rest : List Nat)
      (he : (v, wt) ∈ get_neighbors g u) (hrest : ListWalk g (v :: rest) q) :
      ListWalk g (u :: v :: rest) (wt + q)

theorem ListWalk.to_walk {g : Graph} {l : List Nat} {q : ℚ}
    (h : ListWalk g l q) :
    ∀ {a b : Nat}, l.head? = some a → l.getLast? = some b → Walk g a b q := by
  induction h with
  | single v hv =>
    intro a b ha hb
    have h1 : v = a := by simpa using ha
    have h2 : v = b := by simpa using hb
    subst h1
    subst h2
    exact Walk.nil v hv
  | cons u v wt q rest he hrest ih =>
    intro a b ha hb
    have h1 : u = a := by simpa using ha
    subst h1
    have hb' : (v :: rest).getLast? = some b := by
      rw [← hb]
      simp [List.getLast?_cons_cons]
    exact Walk.cons u v b wt q he (ih (by simp) hb')

theorem ListWalk.snoc_edge {g : Graph} {l : List Nat} {q : ℚ}
    (h : ListWalk g l q) :
    ∀ {wt : ℚ} {u x : Nat}, l.getLast? = some u →
      (x, wt) ∈ get_neighbors g u → isKey g x = true →
      ListWalk g (l ++ [x]) (q + wt) := by
  induction h with
  | single v hv =>
    intro wt u x hu he hx
    have h1 : v = u := by simpa using hu
    subst h1
    have := ListWalk.cons v x wt 0 [] he (ListWalk.single x hx)
    simpa [add_comm] using this
  | cons a v wt' q' rest he' hrest ih =>
    intro wt u x hu he hx
    have hu' : (v :: rest).getLast? = some u := by
      rw [← hu]
      simp [List.getLast?_cons_cons]
    have := ListWalk.cons a v wt' (q' + wt) (rest ++ [x]) he' (ih hu' he hx)
    rw [show wt' + (q' + wt) = (wt' + q') + wt from by ring] at this
    simpa using this

/-- The frontier contains an entry exactly matching `v`'s current distance
(i.e. `v` has been pushed and its best entry not yet popped). -/
def MatchableP (st : DState) (v : Nat) : Prop :=
  ∃ p ∈ st.priority_queue, p.2 = v ∧
    st.distances v = some ((p.1 : ℚ) : WithTop ℚ)

def FiniteD (st : DState) (v : Nat) : Prop :=
  ∃ q : ℚ, st.distances v = some ((q : ℚ) : WithTop ℚ)

/-- `v` has a finite distance and no matching frontier entry: it has been
popped and processed at its final distance. -/
def SettledP (st : DState) (v : Nat) : Prop :=
  FiniteD st v ∧ ¬ MatchableP st v

/-- The `previous_vertices` chain from `v` reaches `start`. -/
inductive RS (prev : Nat → Option Nat) (start : Nat) : Nat → Prop where
  | base : RS prev start start
  | step (v u : Nat) (hprev : prev v = some u) (hu : RS prev start u) :
      RS prev start v

/-- The Dijkstra loop invariant. -/
structure DInv (g : Graph) (start : Nat) (st : DState) : Prop where
  dom : ∀ w, (st.distances w).isSome = isKey g w
  start0 : st.distances start = some ((0 : ℚ) : WithTop ℚ)
  queue_wf : ∀ p ∈ st.priority_queue, isKey g p.2 = true ∧ 0 ≤ p.1 ∧
      ∃ dv, st.distances p.2 = some dv ∧ dv ≤ ((p.1 : ℚ) : WithTop ℚ)
  uniq : ∀ (v : Nat) (q : ℚ), st.distances v = some ((q : ℚ) : WithTop ℚ) →
      countPair st.priority_queue (q, v) ≤ 1
  settled_le : ∀ v, SettledP st v → ∀ p ∈ st.priority_queue,
      ∃ qv : ℚ, st.distances v = some ((qv : ℚ) : WithTop ℚ) ∧ qv ≤ p.1
  relaxed : ∀ v, SettledP st v → ∀ p ∈ get_neighbors g v,
      ∃ (qv : ℚ) (dn : WithTop ℚ),
        st.distances v = some ((qv : ℚ) : WithTop ℚ) ∧
        st.distances p.1 = some dn ∧ dn ≤ ((qv + p.2 : ℚ) : WithTop ℚ)
  pathwit : ∀ v (q : ℚ), st.distances v = some ((q : ℚ) : WithTop ℚ) →
      Walk g start v q
  link : ∀ v u, st.previous_vertices v = some u →
      ∃ (wt qu qv : ℚ), (v, wt) ∈ get_neighbors g u ∧
        st.distances u = some ((qu : ℚ) : WithTop ℚ) ∧
        st.distances v = some ((qv : ℚ) : WithTop ℚ) ∧ qu + wt ≤ qv
  chain : ∀ v (q : ℚ), st.distances v = some ((q : ℚ) : WithTop ℚ) →
      RS st.previous_vertices start v

/-- The invariant during the relaxation pass for the vertex `v` just popped
at distance `d`: `DInv` with `v` exempted from `relaxed` (its neighbors are
being relaxed now), plus the facts that `v` sits at distance `d`, that every
frontier entry is at least `d`, and that every settled vertex is at most
`d`. -/
structure RInv (g : Graph) (start v : Nat) (d : ℚ) (st : DState) : Prop where
  dom : ∀ w, (st.distances w).isSome = isKey g w
  start0 : st.distances start = some ((0 : ℚ) : WithTop ℚ)
  queue_wf : ∀ p ∈ st.priority_queue, isKey g p.2 = true ∧ 0 ≤ p.1 ∧
      ∃ dv, st.distances p.2 = some dv ∧ dv ≤ ((p.1 : ℚ) : WithTop ℚ)
  uniq : ∀ (w : Nat) (q : ℚ), st.distances w = some ((q : ℚ) : WithTop ℚ) →
      countPair st.priority_queue (q, w) ≤ 1
  settled_le : ∀ w, SettledP st w → ∀ p ∈ st.priority_queue,
      ∃ qw : ℚ, st.distances w = some ((qw : ℚ) : WithTop ℚ) ∧ qw ≤ p.1
  relaxed_nv : ∀ w, w ≠ v → SettledP st w → ∀ p ∈ get_neighbors g w,
      ∃ (qw : ℚ) (dn : WithTop ℚ),
        st.distances w = some ((qw : ℚ) : WithTop ℚ) ∧
        st.distances p.1 = some dn ∧ dn ≤ ((qw + p.2 : ℚ) : WithTop ℚ)
  pathwit : ∀ w (q : ℚ), st.distances w = some ((q : ℚ) : WithTop ℚ) →
      Walk g start w q
  link : ∀ w u, st.previous_vertices w = some u →
      ∃ (wt qu qw : ℚ), (w, wt) ∈ get_neighbors g u ∧
        st.distances u = some ((qu : ℚ) : WithTop ℚ) ∧
        st.distances w = some ((qw : ℚ) : WithTop ℚ) ∧ qu + wt ≤ qw
  chain : ∀ w (q : ℚ), st.distances w = some ((q : ℚ) : WithTop ℚ) →
      RS st.previous_vertices start w
  distv : st.distances v = some ((d : ℚ) : WithTop ℚ)
  qd : ∀ p ∈ st.priority_queue, d ≤ p.1
  settled_d : ∀ w, SettledP st w →
      ∃ qw : ℚ, st.distances w = some ((qw : ℚ) : WithTop ℚ) ∧ qw ≤ d

/-! ### Frontier-minimum and chain lemmas -/

theorem lexMin_cases (x y : ℚ × Nat) : lexMin x y = x ∨ lexMin x y = y := by
  unfold lexMin
  split <;> simp

theorem lexMin_fst_le_left (x y : ℚ × Nat) : (lexMin x y).1 ≤ x.1 := by
  unfold lexMin
  split
  case isTrue h =>
    rcases h with h | h
    · exact le_of_lt h
    · exact le_of_eq h.1
  case isFalse h => exact le_refl _

theorem lexMin_fst_le_right (x y : ℚ × Nat) : (lexMin x y).1 ≤ y.1 := by
  unfold lexMin
  split
  case isTrue h => exact le_refl _
  case isFalse h =>
    push_neg at h
    exact h.1

theorem heapMin_mem : ∀ (xs : List (ℚ × Nat)) (x : ℚ × Nat),
    heapMin x xs = x ∨ heapMin x xs ∈ xs := by
  intro xs
  induction xs with
  | nil =>
    intro x
    left
    rfl
  | cons y ys ih =>
    intro x
    have h1 : heapMin x (y :: ys) = heapMin (lexMin x y) ys := rfl
    rw [h1]
    rcases ih (lexMin x y) with h | h
    · rcases lexMin_cases x y with h2 | h2
      · left
        rw [h, h2]
      · right
        rw [h, h2]
        exact List.mem_cons_self y ys
    · right
      exact List.mem_cons_of_mem y h

theorem heapMin_fst_le : ∀ (xs : List (ℚ × Nat)) (x : ℚ × Nat),
    (heapMin x xs).1 ≤ x.1 ∧ ∀ p ∈ xs, (heapMin x xs).1 ≤ p.1 := by
  intro xs
  induction xs with
  | nil =>
    intro x
    exact ⟨le_refl _, by simp⟩
  | cons y ys ih =>
    intro x
    have h1 : heapMin x (y :: ys) = heapMin (lexMin x y) ys := rfl
    rw [h1]
    obtain ⟨ha, hb⟩ := ih (lexMin x y)
    refine ⟨le_trans ha (lexMin_fst_le_left x y), ?_⟩
    intro p hp
    rcases List.mem_cons.mp hp with hp | hp
    · subst hp
      exact le_trans ha (lexMin_fst_le_right x p)
    · exact hb p hp

theorem removeFirst_perm : ∀ (q : List (ℚ × Nat)) (m : ℚ × Nat), m ∈ q →
    q.Perm (m :: removeFirst q m) := by
  intro q
  induction q with
  | nil =>
    intro m hm
    simp at hm
  | cons x xs ih =>
    intro m hm
    unfold removeFirst
    by_cases hxm : x = m
    · subst hxm
      simp
    · simp only [hxm, if_false]
      have hm' : m ∈ xs := by
        rcases List.mem_cons.mp hm with h | h
        · exact absurd h.symm hxm
        · exact h
      refine ((ih m hm').cons x).trans ?_
      exact List.Perm.swap m x _

theorem removeFirst_subset : ∀ (q : List (ℚ × Nat)) (m p : ℚ × Nat),
    p ∈ removeFirst q m → p ∈ q := by
  intro q
  induction q with
  | nil =>
    intro m p hp
    simp [removeFirst] at hp
  | cons x xs ih =>
    intro m p hp
    unfold removeFirst at hp
    by_cases hxm : x = m
    · simp only [hxm, if_true] at hp
      exact List.mem_cons_of_mem x hp
    · simp only [hxm, if_false] at hp
      rcases List.mem_cons.mp hp with h | h
      · exact h ▸ List.mem_cons_self x xs
      · exact List.mem_cons_of_mem x (ih m p h)

theorem removeFirst_mem_of_ne : ∀ (q : List (ℚ × Nat)) (m p : ℚ × Nat),
    p ≠ m → p ∈ q → p ∈ removeFirst q m := by
  intro q
  induction q with
  | nil =>
    intro m p _ hp
    simp at hp
  | cons x xs ih =>
    intro m p hne hp
    unfold removeFirst
    by_cases hxm : x = m
    · simp only [hxm, if_true]
      rcases List.mem_cons.mp hp with h | h
      · exact absurd (h.trans hxm) hne
      · exact h
    · simp only [hxm, if_false]
      rcases List.mem_cons.mp hp with h | h
      · exact h ▸ List.mem_cons_self x _
      · exact List.mem_cons_of_mem x (ih m p hne h)

theorem countPair_nil (m : ℚ × Nat) : countPair [] m = 0 := rfl

theorem countPair_cons (x : ℚ × Nat) (q : List (ℚ × Nat)) (m : ℚ × Nat) :
    countPair (x :: q) m = (if x = m then 1 else 0) + countPair q m := by
  unfold countPair
  by_cases h : x = m
  · simp [h, List.filter_cons]
    omega
  · simp [h, List.filter_cons]

theorem countPair_append (q1 q2 : List (ℚ × Nat)) (m : ℚ × Nat) :
    countPair (q1 ++ q2) m = countPair q1 m + countPair q2 m := by
  unfold countPair
  simp [List.filter_append]

theorem countPair_pos_iff_mem (q : List (ℚ × Nat)) (m : ℚ × Nat) :
    0 < countPair q m ↔ m ∈ q := by
  induction q with
  | nil => simp [countPair_nil]
  | cons x xs ih =>
    rw [countPair_cons]
    by_cases h : x = m
    · simp [h]
    · simp only [h, if_false, zero_add, ih, List.mem_cons]
      constructor
      · exact fun hm => Or.inr hm
      · intro hm
        rcases hm with hm | hm
        · exact absurd hm.symm h
        · exact hm

theorem countPair_removeFirst_self : ∀ (q : List (ℚ × Nat)) (m : ℚ × Nat),
    m ∈ q → countPair (removeFirst q m) m + 1 = countPair q m := by
  intro q
  induction q with
  | nil =>
    intro m hm
    simp at hm
  | cons x xs ih =>
    intro m hm
    unfold removeFirst
    by_cases h : x = m
    · simp only [h, if_true, countPair_cons, if_pos rfl]
      omega
    · simp only [h, if_false, countPair_cons]
      have hm' : m ∈ xs := by
        rcases List.mem_cons.mp hm with h2 | h2
        · exact absurd h2.symm h
        · exact h2
      have := ih m hm'
      omega

theorem countPair_removeFirst_le : ∀ (q : List (ℚ × Nat)) (m z : ℚ × Nat),
    countPair (removeFirst q m) z ≤ countPair q z := by
  intro q
  induction q with
  | nil =>
    intro m z
    simp [removeFirst]
  | cons x xs ih =>
    intro m z
    unfold removeFirst
    by_cases h : x = m
    · simp only [h, if_true, countPair_cons]
      omega
    · simp only [h, if_false, countPair_cons]
      have := ih m z
      omega

theorem heappop_spec {q : List (ℚ × Nat)} {x : ℚ × Nat} {xs : List (ℚ × Nat)}
    (h : q = x :: xs) :
    ∃ m, heappop q = some (m, removeFirst q m) ∧ m ∈ q ∧
      (∀ p ∈ q, m.1 ≤ p.1) ∧ q.Perm (m :: removeFirst q m) ∧
      (removeFirst q m).length + 1 = q.length ∧
      (∀ p ∈ removeFirst q m, p ∈ q) := by
  subst h
  have hm : heapMin x xs ∈ x :: xs := by
    rcases heapMin_mem xs x with h | h
    · rw [h]
      exact List.mem_cons_self x xs
    · exact List.mem_cons_of_mem x h
  refine ⟨heapMin x xs, rfl, hm, ?_, removeFirst_perm _ _ hm, ?_, ?_⟩
  · intro p hp
    obtain ⟨ha, hb⟩ := heapMin_fst_le xs x
    rcases List.mem_cons.mp hp with hp | hp
    · subst hp
      exact ha
    · exact hb p hp
  · have := (removeFirst_perm _ _ hm).length_eq
    simp only [this]
    simp
  · intro p hp
    exact removeFirst_subset _ _ _ hp

/-- Re-pointing `prev` at a strictly relaxed vertex `w` preserves
reaches-start chains, and gives `w` one. -/
theorem rs_update {g : Graph} {start : Nat} (hNN : NonNegWeights g)
    (dist : Nat → Option (WithTop ℚ)) (prev : Nat → Option Nat)
    (hlink : ∀ x u, prev x = some u → ∃ (wt qu qx : ℚ),
      (x, wt) ∈ get_neighbors g u ∧
      dist u = some ((qu : ℚ) : WithTop ℚ) ∧
      dist x = some ((qx : ℚ) : WithTop ℚ) ∧ qu + wt ≤ qx)
    (v w : Nat) (d wt : ℚ) (dOld : WithTop ℚ)
    (hdv : dist v = some ((d : ℚ) : WithTop ℚ))
    (hdw : dist w = some dOld)
    (hlt : (((d + wt : ℚ)) : WithTop ℚ) < dOld)
    (hwt : 0 ≤ wt)
    (hrsv : RS prev start v) :
    (∀ x, RS prev start x → RS (Function.update prev w (some v)) start x) ∧
      RS (Function.update prev w (some v)) start w := by
  have hsub : ∀ y, RS prev start y → ∀ qy : ℚ,
      dist y = some ((qy : ℚ) : WithTop ℚ) → ((qy : ℚ) : WithTop ℚ) < dOld →
      RS (Function.update prev w (some v)) start y := by
    intro y hy
    induction hy with
    | base =>
      intro qy hq hlt2
      exact RS.base
    | step y u hprev hu ih =>
      intro qy hq hlt2
      obtain ⟨wt', qu, qy', he, hdu, hdy, hle⟩ := hlink y u hprev
      have hqy : qy' = qy := by
        rw [hq] at hdy
        exact_mod_cast Option.some.inj hdy.symm
      subst hqy
      have hwt' : 0 ≤ wt' := nonneg_of_mem_neighbors hNN he
      have hqu_lt : ((qu : ℚ) : WithTop ℚ) < dOld := by
        have h1 : qu ≤ qy' := by linarith
        exact lt_of_le_of_lt (by exact_mod_cast h1) hlt2
      have hyw : y ≠ w := by
        intro hyw
        subst hyw
        rw [hq] at hdw
        rw [Option.some.inj hdw] at hlt2
        exact absurd hlt2 (lt_irrefl _)
      refine RS.step y u ?_ (ih qu hdu hqu_lt)
      rw [Function.update_noteq hyw]
      exact hprev
  have hrsv' : RS (Function.update prev w (some v)) start v := by
    have hdlt : ((d : ℚ) : WithTop ℚ) < dOld := by
      refine lt_of_le_of_lt ?_ hlt
      exact_mod_cast (by linarith : d ≤ d + wt)
    exact hsub v hrsv d hdv hdlt
  have hrsw : RS (Function.update prev w (some v)) start w :=
    RS.step w v (by rw [Function.update_same]) hrsv'
  refine ⟨?_, hrsw⟩
  intro x hx
  induction hx with
  | base => exact RS.base
  | step x u hprev hu ih =>
    by_cases hxw : x = w
    · subst hxw
      exact hrsw
    · exact RS.step x u (by rw [Function.update_noteq hxw]; exact hprev) ih

/-- The state produced by one successful relaxation of the edge `(w, wt)`
out of `v` popped at distance `d`. -/
def relaxed1 (st : DState) (v w : Nat) (d wt : ℚ) : DState :=
  ⟨Function.update st.distances w (some (((d + wt : ℚ)) : WithTop ℚ)),
   Function.update st.previous_vertices w (some v),
   st.priority_queue ++ [(d + wt, w)]⟩

theorem relax_step {g : Graph} {start v : Nat} {d : ℚ} {st : DState}
    (hWF : WFGraph g) (hNN : NonNegWeights g) (hd0 : 0 ≤ d)
    (hvkey : isKey g v = true)
    (hR : RInv g start v d st)
    {w : Nat} {wt : ℚ} (hw : (w, wt) ∈ get_neighbors g v)
    {dn : WithTop ℚ} (hdn : st.distances w = some dn)
    (hlt : (((d + wt : ℚ)) : WithTop ℚ) < dn) :
    RInv g start v d (relaxed1 st v w d wt) ∧
    (∀ x, SettledP st x ↔ SettledP (relaxed1 st v w d wt) x) ∧
    (∀ x dx, st.distances x = some dx →
      ∃ dx', (relaxed1 st v w d wt).distances x = some dx' ∧ dx' ≤ dx) ∧
    w ≠ v := by
  obtain ⟨dom, start0, queue_wf, uniq, settled_le, relaxed_nv, pathwit, link,
    chain, distv, qd, settled_d⟩ := hR
  have hwt : 0 ≤ wt := nonneg_of_mem_neighbors hNN hw
  have hwkey : isKey g w = true := key_of_mem_neighbors hWF hw
  have hwv : w ≠ v := by
    intro h
    subst h
    rw [distv] at hdn
    have hdnd : dn = ((d : ℚ) : WithTop ℚ) := (Option.some.inj hdn).symm
    rw [hdnd] at hlt
    have : d + wt < d := by exact_mod_cast hlt
    linarith
  have hwstart : w ≠ start := by
    intro h
    subst h
    rw [start0] at hdn
    have hdnd : dn = ((0 : ℚ) : WithTop ℚ) := (Option.some.inj hdn).symm
    rw [hdnd] at hlt
    have : d + wt < 0 := by exact_mod_cast hlt
    linarith
  have hw_unsettled : ¬ SettledP st w := by
    intro hs
    obtain ⟨qw, hqw, hqwd⟩ := settled_d w hs
    rw [hdn] at hqw
    have hdnq : dn = ((qw : ℚ) : WithTop ℚ) := Option.some.inj hqw
    rw [hdnq] at hlt
    have : d + wt < qw := by exact_mod_cast hlt
    linarith
  set st' := relaxed1 st v w d wt with hst'
  have hD'w : st'.distances w = some (((d + wt : ℚ)) : WithTop ℚ) := by
    rw [hst']
    unfold relaxed1
    exact Function.update_same w _ _
  have hD'x : ∀ x, x ≠ w → st'.distances x = st.distances x := by
    intro x hx
    rw [hst']
    unfold relaxed1
    exact Function.update_noteq hx _ _
  have hP'w : st'.previous_vertices w = some v := by
    rw [hst']
    unfold relaxed1
    exact Function.update_same w _ _
  have hP'x : ∀ x, x ≠ w → st'.previous_vertices x = st.previous_vertices x := by
    intro x hx
    rw [hst']
    unfold relaxed1
    exact Function.update_noteq hx _ _
  have hQ' : st'.priority_queue = st.priority_queue ++ [(d + wt, w)] := rfl
  have hmono : ∀ x dx, st.distances x = some dx →
      ∃ dx', st'.distances x = some dx' ∧ dx' ≤ dx := by
    intro x dx hdx
    by_cases hx : x = w
    · subst hx
      rw [hdn] at hdx
      refine ⟨_, hD'w, ?_⟩
      rw [← Option.some.inj hdx]
      exact le_of_lt hlt
    · exact ⟨dx, by rw [hD'x x hx]; exact hdx, le_refl _⟩
  have hw_unsettled' : ¬ SettledP st' w := by
    intro hs
    refine hs.2 ⟨(d + wt, w), ?_, rfl, hD'w⟩
    rw [hQ']
    exact List.mem_append_right _ (List.mem_cons_self _ _)
  have hsettled_iff : ∀ x, SettledP st x ↔ SettledP st' x := by
    intro x
    by_cases hx : x = w
    · subst hx
      exact iff_of_false hw_unsettled hw_unsettled'
    · have hfin : FiniteD st x ↔ FiniteD st' x := by
        unfold FiniteD
        rw [hD'x x hx]
      have hmatch : MatchableP st x ↔ MatchableP st' x := by
        constructor
        · rintro ⟨p, hp, hpx, hpd⟩
          refine ⟨p, ?_, hpx, by rw [hD'x x hx]; exact hpd⟩
          rw [hQ']
          exact List.mem_append_left _ hp
        · rintro ⟨p, hp, hpx, hpd⟩
          rw [hQ'] at hp
          rcases List.mem_append.mp hp with hp | hp
          · exact ⟨p, hp, hpx, by rw [← hD'x x hx]; exact hpd⟩
          · have : p = (d + wt, w) := by simpa using hp
            rw [this] at hpx
            exact absurd hpx.symm hx
      unfold SettledP
      rw [hfin, hmatch]
  refine ⟨?_, hsettled_iff, hmono, hwv⟩
  refine ⟨?_, ?_, ?_, ?_, ?_, ?_, ?_, ?_, ?_, ?_, ?_, ?_⟩
  · intro x
    by_cases hx : x = w
    · subst hx
      rw [hD'w]
      simp [hwkey]
    · rw [hD'x x hx]
      exact dom x
  · rw [hD'x start (Ne.symm hwstart)]
    exact start0
  · intro p hp
    rw [hQ'] at hp
    rcases List.mem_append.mp hp with hp | hp
    · obtain ⟨hk, h0, dv, hdv, hdvle⟩ := queue_wf p hp
      obtain ⟨dv', hdv', hdvle'⟩ := hmono p.2 dv hdv
      exact ⟨hk, h0, dv', hdv', le_trans hdvle' hdvle⟩
    · have hpe : p = (d + wt, w) := by simpa using hp
      subst hpe
      refine ⟨hwkey, by positivity, _, hD'w, le_refl _⟩
  · intro x q hq
    by_cases hx : x = w
    · subst hx
      rw [hD'w] at hq
      have hqe : q = d + wt := by exact_mod_cast Option.some.inj hq.symm
      subst hqe
      rw [hQ', countPair_append]
      have hnotin : ¬ (d + wt, x) ∈ st.priority_queue := by
        intro hmem
        obtain ⟨-, -, dv, hdv, hdvle⟩ := queue_wf _ hmem
        rw [hdn] at hdv
        rw [← Option.some.inj hdv] at hdvle
        exact absurd hlt (not_lt.mpr hdvle)
      have hz : countPair st.priority_queue (d + wt, x) = 0 := by
        by_contra hnz
        exact hnotin ((countPair_pos_iff_mem _ _).mp (by omega))
      rw [hz]
      simp [countPair_cons, countPair_nil]
    · rw [hD'x x hx] at hq
      rw [hQ', countPair_append]
      have hz : countPair [(d + wt, w)] (q, x) = 0 := by
        rw [countPair_cons, countPair_nil]
        have hne : ((d + wt, w) : ℚ × Nat) ≠ (q, x) := by
          intro he
          exact hx (congrArg Prod.snd he).symm
        simp [hne]
      rw [hz]
      have := uniq x q hq
      omega
  · intro x hs p hp
    have hsx : SettledP st x := (hsettled_iff x).mpr hs
    have hxw : x ≠ w := by
      intro h
      subst h
      exact hw_unsettled hsx
    rw [hQ'] at hp
    rcases List.mem_append.mp hp with hp | hp
    · obtain ⟨qx, hqx, hle⟩ := settled_le x hsx p hp
      exact ⟨qx, by rw [hD'x x hxw]; exact hqx, hle⟩
    · have hpe : p = (d + wt, w) := by simpa using hp
      subst hpe
      obtain ⟨qx, hqx, hle⟩ := settled_d x hsx
      refine ⟨qx, by rw [hD'x x hxw]; exact hqx, ?_⟩
      simp only []
      linarith
  · intro x hxv hs p hp
    have hsx : SettledP st x := (hsettled_iff x).mpr hs
    have hxw : x ≠ w := by
      intro h
      subst h
      exact hw_unsettled hsx
    obtain ⟨qx, dnp, hqx, hdnp, hle⟩ := relaxed_nv x hxv hsx p hp
    obtain ⟨dnp', hdnp', hdnple⟩ := hmono p.1 dnp hdnp
    exact ⟨qx, dnp', by rw [hD'x x hxw]; exact hqx, hdnp', le_trans hdnple hle⟩
  · intro x q hq
    by_cases hx : x = w
    · subst hx
      rw [hD'w] at hq
      have hqe : q = d + wt := by exact_mod_cast Option.some.inj hq.symm
      subst hqe
      have hwv' : Walk g start v d := pathwit v d distv
      exact Walk.append_edge hWF hwv' hw
    · rw [hD'x x hx] at hq
      exact pathwit x q hq
  · intro x u hprev
    by_cases hx : x = w
    · subst hx
      rw [hP'w] at hprev
      have hu : u = v := (Option.some.inj hprev).symm
      subst hu
      refine ⟨wt, d, d + wt, hw, ?_, hD'w, le_refl _⟩
      rw [hD'x u (Ne.symm hwv)]
      exact distv
    · rw [hP'x x hx] at hprev
      obtain ⟨wt', qu, qx, he, hdu, hdx, hle⟩ := link x u hprev
      by_cases hu : u = w
      · subst hu
        rw [hdn] at hdu
        have hdnq : dn = ((qu : ℚ) : WithTop ℚ) := Option.some.inj hdu
        refine ⟨wt', d + wt, qx, he, hD'w, by rw [hD'x x hx]; exact hdx, ?_⟩
        have hlt' : d + wt < qu := by
          rw [hdnq] at hlt
          exact_mod_cast hlt
        linarith
      · exact ⟨wt', qu, qx, he, by rw [hD'x u hu]; exact hdu,
          by rw [hD'x x hx]; exact hdx, hle⟩
  · intro x q hq
    have hrs := rs_update hNN st.distances st.previous_vertices link v w d wt
      dn distv hdn hlt hwt (chain v d distv)
    by_cases hx : x = w
    · subst hx
      exact hrs.2
    · rw [hD'x x hx] at hq
      exact hrs.1 x (chain x q hq)
  · rw [hD'x v (Ne.symm hwv)]
    exact distv
  · intro p hp
    rw [hQ'] at hp
    rcases List.mem_append.mp hp with hp | hp
    · exact qd p hp
    · have hpe : p = (d + wt, w) := by simpa using hp
      subst hpe
      simp only []
      linarith
  · intro x hs
    have hsx : SettledP st x := (hsettled_iff x).mpr hs
    have hxw : x ≠ w := by
      intro h
      subst h
      exact hw_unsettled hsx
    obtain ⟨qx, hqx, hle⟩ := settled_d x hsx
    exact ⟨qx, by rw [hD'x x hxw]; exact hqx, hle⟩

theorem relaxAll_spec {g : Graph} {start v : Nat} {d : ℚ}
    (hWF : WFGraph g) (hNN : NonNegWeights g) (hd0 : 0 ≤ d)
    (hvkey : isKey g v = true) :
    ∀ (ns : List (Nat × ℚ)) (st : DState),
      (∀ p ∈ ns, p ∈ get_neighbors g v) →
      RInv g start v d st →
      ∃ st', relaxAll d v ns st = .ok st' ∧
        RInv g start v d st' ∧
        (∀ x, SettledP st x ↔ SettledP st' x) ∧
        (∀ x dx, st.distances x = some dx →
          ∃ dx', st'.distances x = some dx' ∧ dx' ≤ dx) ∧
        (∀ p ∈ ns, ∃ dnp, st'.distances p.1 = some dnp ∧
          dnp ≤ ((d + p.2 : ℚ) : WithTop ℚ)) ∧
        (∃ tail, st'.priority_queue = st.priority_queue ++ tail ∧
          tail.length ≤ ns.length) ∧
        (∀ qv : ℚ, (qv, v) ∈ st'.priority_queue →
          (qv, v) ∈ st.priority_queue) := by
  intro ns
  induction ns with
  | nil =>
    intro st _ hR
    refine ⟨st, rfl, hR, fun x => Iff.rfl, ?_, ?_, ⟨[], by simp, by simp⟩, ?_⟩
    · exact fun x dx hdx => ⟨dx, hdx, le_refl _⟩
    · intro p hp
      simp at hp
    · exact fun qv hq => hq
  | cons hd_p rest ih =>
    obtain ⟨w, wt⟩ := hd_p
    intro st hns hR
    have hwmem : (w, wt) ∈ get_neighbors g v := hns _ (List.mem_cons_self _ _)
    have hwkey : isKey g w = true := key_of_mem_neighbors hWF hwmem
    have hsome : (st.distances w).isSome = true := by
      rw [hR.dom w]
      exact hwkey
    obtain ⟨dn, hdn⟩ := Option.isSome_iff_exists.mp hsome
    by_cases hlt : (((d + wt : ℚ)) : WithTop ℚ) < dn
    · obtain ⟨hR1, hsiff1, hmono1, hwv⟩ :=
        relax_step hWF hNN hd0 hvkey hR hwmem hdn hlt
      obtain ⟨st', hrec, hR', hsiff', hmono', hbound', htail', hvq'⟩ :=
        ih (relaxed1 st v w d wt)
          (fun p hp => hns p (List.mem_cons_of_mem _ hp)) hR1
      obtain ⟨tail1, htail1, hlen1⟩ := htail'
      refine ⟨st', ?_, hR', ?_, ?_, ?_, ?_, ?_⟩
      · show relaxAll d v ((w, wt) :: rest) st = .ok st'
        unfold relaxAll
        rw [hdn]
        simp only [hlt, if_true]
        exact hrec
      · intro x
        exact (hsiff1 x).trans (hsiff' x)
      · intro x dx hdx
        obtain ⟨dx1, hdx1, hle1⟩ := hmono1 x dx hdx
        obtain ⟨dx2, hdx2, hle2⟩ := hmono' x dx1 hdx1
        exact ⟨dx2, hdx2, le_trans hle2 hle1⟩
      · intro p hp
        rcases List.mem_cons.mp hp with hp | hp
        · subst hp
          have h1 : (relaxed1 st v w d wt).distances w =
              some (((d + wt : ℚ)) : WithTop ℚ) := Function.update_same w _ _
          obtain ⟨dnp, hdnp, hle⟩ := hmono' w _ h1
          exact ⟨dnp, hdnp, hle⟩
        · exact hbound' p hp
      · refine ⟨(d + wt, w) :: tail1, ?_, ?_⟩
        · rw [htail1]
          show (st.priority_queue ++ [(d + wt, w)]) ++ tail1 = _
          simp
        · simp only [List.length_cons]
          omega
      · intro qv hq
        have h1 := hvq' qv hq
        have h2 : (qv, v) ∈ st.priority_queue ++ [(d + wt, w)] := h1
        rcases List.mem_append.mp h2 with h3 | h3
        · exact h3
        · have : ((qv, v) : ℚ × Nat) = (d + wt, w) := by simpa using h3
          exact absurd (congrArg Prod.snd this) (Ne.symm hwv)
    · obtain ⟨st', hrec, hR', hsiff', hmono', hbound', htail', hvq'⟩ :=
        ih st (fun p hp => hns p (List.mem_cons_of_mem _ hp)) hR
      obtain ⟨tail1, htail1, hlen1⟩ := htail'
      refine ⟨st', ?_, hR', hsiff', hmono', ?_,
        ⟨tail1, htail1, by simp only [List.length_cons]; omega⟩, hvq'⟩
      · show relaxAll d v ((w, wt) :: rest) st = .ok st'
        unfold relaxAll
        rw [hdn]
        simp only [hlt, if_false]
        exact hrec
      · intro p hp
        rcases List.mem_cons.mp hp with hp | hp
        · subst hp
          obtain ⟨dnp, hdnp, hle⟩ := hmono' w dn hdn
          exact ⟨dnp, hdnp, le_trans hle (not_lt.mp hlt)⟩
        · exact hbound' p hp

/-! ### The termination potential -/

def finiteDistB (o : Option (WithTop ℚ)) : Bool :=
  match o with
  | some dv => decide (dv ≠ ⊤)
  | none => false

def matchableB (st : DState) (v : Nat) : Bool :=
  st.priority_queue.any (fun p =>
    p.2 == v && decide (st.distances v = some ((p.1 : ℚ) : WithTop ℚ)))

def settledB (st : DState) (v : Nat) : Bool :=
  finiteDistB (st.distances v) && ! matchableB st v

theorem finiteDistB_iff (o : Option (WithTop ℚ)) :
    finiteDistB o = true ↔ ∃ q : ℚ, o = some ((q : ℚ) : WithTop ℚ) := by
  cases o with
  | none => simp [finiteDistB]
  | some dv =>
    simp only [finiteDistB, decide_eq_true_eq]
    constructor
    · intro h
      obtain ⟨q, hq⟩ := WithTop.ne_top_iff_exists.mp h
      exact ⟨q, by rw [hq]⟩
    · rintro ⟨q, hq⟩
      rw [Option.some.inj hq]
      exact WithTop.coe_ne_top

theorem matchableB_iff (st : DState) (v : Nat) :
    matchableB st v = true ↔ MatchableP st v := by
  unfold matchableB MatchableP
  rw [List.any_eq_true]
  constructor
  · rintro ⟨p, hp, hpred⟩
    rw [Bool.and_eq_true, beq_iff_eq, decide_eq_true_eq] at hpred
    exact ⟨p, hp, hpred.1, hpred.2⟩
  · rintro ⟨p, hp, h1, h2⟩
    refine ⟨p, hp, ?_⟩
    rw [Bool.and_eq_true, beq_iff_eq, decide_eq_true_eq]
    exact ⟨h1, h2⟩

theorem settledB_iff (st : DState) (v : Nat) :
    settledB st v = true ↔ SettledP st v := by
  unfold settledB SettledP FiniteD
  rw [Bool.and_eq_true, Bool.not_eq_true']
  constructor
  · rintro ⟨h1, h2⟩
    refine ⟨(finiteDistB_iff _).mp h1, ?_⟩
    intro hm
    rw [(matchableB_iff st v).mpr hm] at h2
    exact absurd h2 (by decide)
  · rintro ⟨h1, h2⟩
    refine ⟨(finiteDistB_iff _).mpr h1, ?_⟩
    rw [Bool.eq_false_iff]
    intro hm
    exact h2 ((matchableB_iff st v).mp hm)

theorem settledB_congr {st st' : DState} {x : Nat}
    (h : SettledP st x ↔ SettledP st' x) : settledB st x = settledB st' x := by
  cases hb : settledB st x with
  | true =>
    have := (settledB_iff st' x).mpr (h.mp ((settledB_iff st x).mp hb))
    rw [this]
  | false =>
    cases hb' : settledB st' x with
    | true =>
      have := (settledB_iff st x).mpr (h.mpr ((settledB_iff st' x).mp hb'))
      exact (Bool.false_ne_true (hb ▸ this)).elim
    | false => rfl

def unsettledDegSum (g : Graph) (st : DState) : Nat :=
  (g.map (fun e => if settledB st e.1 then 0 else e.2.length)).sum

def phi (g : Graph) (st : DState) : Nat :=
  st.priority_queue.length + unsettledDegSum g st

theorem unsettledDegSum_le_totalAdj (g : Graph) (st : DState) :
    unsettledDegSum g st ≤ totalAdj g := by
  unfold unsettledDegSum totalAdj
  apply List.sum_le_sum
  intro e _
  split
  · exact Nat.zero_le _
  · exact le_refl _

theorem unsettledDegSum_mono {g : Graph} {st st' : DState}
    (h : ∀ x, settledB st x = true → settledB st' x = true) :
    unsettledDegSum g st' ≤ unsettledDegSum g st := by
  unfold unsettledDegSum
  apply List.sum_le_sum
  intro e _
  by_cases hb : settledB st e.1 = true
  · rw [if_pos hb, if_pos (h e.1 hb)]
  · rw [if_neg hb]
    split
    · exact Nat.zero_le _
    · exact le_refl _

theorem unsettledDegSum_gain {g : Graph} {st st' : DState}
    (hmono : ∀ x, settledB st x = true → settledB st' x = true)
    {v : Nat} (hv : settledB st v = false) (hv' : settledB st' v = true)
    {nb : List (Nat × ℚ)} (hadj : adjLookup g v = some nb) :
    unsettledDegSum g st' + nb.length ≤ unsettledDegSum g st := by
  have hfind : ∃ e, List.find? (fun e => e.1 = v) g = some e ∧
      e.1 = v ∧ e.2 = nb := by
    unfold adjLookup at hadj
    cases hf : List.find? (fun e => e.1 = v) g with
    | none =>
      rw [hf] at hadj
      simp at hadj
    | some e =>
      rw [hf] at hadj
      refine ⟨e, rfl, ?_, by simpa using hadj⟩
      have := List.find?_some hf
      simpa using this
  obtain ⟨e, hf, he1, he2⟩ := hfind
  obtain ⟨l1, l2, hg⟩ := List.append_of_mem (List.mem_of_find?_eq_some hf)
  unfold unsettledDegSum
  rw [hg]
  simp only [List.map_append, List.map_cons, List.sum_append, List.sum_cons]
  have h1 : ((l1.map fun e => if settledB st' e.1 then 0 else e.2.length)).sum ≤
      ((l1.map fun e => if settledB st e.1 then 0 else e.2.length)).sum := by
    apply List.sum_le_sum
    intro x _
    by_cases hb : settledB st x.1 = true
    · rw [if_pos hb, if_pos (hmono x.1 hb)]
    · rw [if_neg hb]
      split
      · exact Nat.zero_le _
      · exact le_refl _
  have h2 : ((l2.map fun e => if settledB st' e.1 then 0 else e.2.length)).sum ≤
      ((l2.map fun e => if settledB st e.1 then 0 else e.2.length)).sum := by
    apply List.sum_le_sum
    intro x _
    by_cases hb : settledB st x.1 = true
    · rw [if_pos hb, if_pos (hmono x.1 hb)]
    · rw [if_neg hb]
      split
      · exact Nat.zero_le _
      · exact le_refl _
  have h3 : (if settledB st' e.1 then 0 else e.2.length) = 0 := by
    rw [he1, if_pos hv']
  have h4 : (if settledB st e.1 then 0 else e.2.length) = nb.length := by
    rw [he1, hv, he2]
    simp
  rw [h3, h4]
  omega

/-! ### The initial state satisfies the invariant -/

theorem dinit_finite {g : Graph} {start v : Nat} {q : ℚ}
    (h : (dijkstraInit g start).distances v = some ((q : ℚ) : WithTop ℚ)) :
    v = start ∧ q = 0 := by
  simp only [dijkstraInit] at h
  by_cases hv : v = start
  · refine ⟨hv, ?_⟩
    rw [if_pos hv] at h
    exact (WithTop.coe_inj.mp (Option.some.inj h)).symm
  · rw [if_neg hv] at h
    by_cases hk : isKey g v = true
    · rw [if_pos hk] at h
      exact absurd (Option.some.inj h).symm WithTop.coe_ne_top
    · rw [if_neg hk] at h
      simp at h

theorem dinit_not_settled {g : Graph} {start v : Nat}
    (h : SettledP (dijkstraInit g start) v) : False := by
  obtain ⟨⟨q, hq⟩, hnm⟩ := h
  obtain ⟨hv0, -⟩ := dinit_finite hq
  subst hv0
  exact hnm ⟨((0 : ℚ), v), by simp [dijkstraInit], rfl,
    by simp [dijkstraInit]⟩

theorem dijkstraInit_dinv {g : Graph} {start : Nat}
    (hs : isKey g start = true) : DInv g start (dijkstraInit g start) := by
  refine ⟨?_, ?_, ?_, ?_, ?_, ?_, ?_, ?_, ?_⟩
  · intro w
    by_cases hw : w = start
    · simp [dijkstraInit, hw, hs]
    · by_cases hk : isKey g w = true
      · simp [dijkstraInit, hw, hk]
      · rw [Bool.not_eq_true] at hk
        simp [dijkstraInit, hw, hk]
  · simp [dijkstraInit]
  · intro p hp
    simp only [dijkstraInit, List.mem_singleton] at hp
    subst hp
    exact ⟨hs, le_refl _, ((0 : ℚ) : WithTop ℚ), by simp [dijkstraInit],
      le_refl _⟩
  · intro v q _
    simp only [dijkstraInit]
    rw [countPair_cons, countPair_nil]
    split <;> omega
  · intro v hv
    exact (dinit_not_settled hv).elim
  · intro v hv
    exact (dinit_not_settled hv).elim
  · intro v q hq
    obtain ⟨hv0, hq0⟩ := dinit_finite hq
    subst hv0
    subst hq0
    exact Walk.nil _ hs
  · intro v u h
    simp [dijkstraInit] at h
  · intro v q hq
    obtain ⟨hv0, -⟩ := dinit_finite hq
    subst hv0
    exact RS.base

theorem phi_init_le (g : Graph) (start : Nat) :
    phi g (dijkstraInit g start) ≤ totalAdj g + 1 := by
  unfold phi
  have h1 : (dijkstraInit g start).priority_queue.length = 1 := rfl
  have h2 := unsettledDegSum_le_totalAdj g (dijkstraInit g start)
  omega

/-! ### Effect of popping an entry on settledness -/

theorem settled_iff_removeFirst {st : DState} {m : ℚ × Nat}
    {dcur : WithTop ℚ} (hdcur : st.distances m.2 = some dcur)
    (hstale : dcur < ((m.1 : ℚ) : WithTop ℚ)) (x : Nat) :
    SettledP st x ↔
      SettledP ⟨st.distances, st.previous_vertices,
        removeFirst st.priority_queue m⟩ x := by
  unfold SettledP MatchableP FiniteD
  constructor
  · rintro ⟨hf, hnm⟩
    refine ⟨hf, ?_⟩
    rintro ⟨p, hp, hpx, hdx⟩
    exact hnm ⟨p, removeFirst_subset _ _ _ hp, hpx, hdx⟩
  · rintro ⟨hf, hnm⟩
    refine ⟨hf, ?_⟩
    rintro ⟨p, hp, hpx, hdx⟩
    apply hnm
    refine ⟨p, ?_, hpx, hdx⟩
    refine removeFirst_mem_of_ne _ _ _ ?_ hp
    intro hpm
    subst hpm
    rw [← hpx, hdcur] at hdx
    rw [Option.some.inj hdx] at hstale
    exact lt_irrefl _ hstale

theorem settled_mono_removeFirst {st : DState} {m : ℚ × Nat} (x : Nat)
    (hs : SettledP st x) :
    SettledP ⟨st.distances, st.previous_vertices,
        removeFirst st.priority_queue m⟩ x := by
  obtain ⟨hf, hnm⟩ := hs
  refine ⟨hf, ?_⟩
  rintro ⟨p, hp, hpx, hdx⟩
  exact hnm ⟨p, removeFirst_subset _ _ _ hp, hpx, hdx⟩

theorem settled_cases_removeFirst {st : DState} {m : ℚ × Nat} (x : Nat)
    (hs1 : SettledP ⟨st.distances, st.previous_vertices,
        removeFirst st.priority_queue m⟩ x) :
    SettledP st x ∨ x = m.2 := by
  obtain ⟨hf, hnm1⟩ := hs1
  by_cases hx : MatchableP st x
  · obtain ⟨p, hp, hpx, hdx⟩ := hx
    by_cases hpm : p = m
    · right
      rw [← hpx, hpm]
    · exfalso
      exact hnm1 ⟨p, removeFirst_mem_of_ne _ _ _ hpm hp, hpx, hdx⟩
  · exact Or.inl ⟨hf, hx⟩

/-- Popping the minimum entry at an up-to-date distance turns the loop
invariant into the relaxation invariant for that vertex. -/
theorem pop_rinv {g : Graph} {start : Nat} {st : DState} {m : ℚ × Nat}
    (hInv : DInv g start st) (hmem : m ∈ st.priority_queue)
    (hmin : ∀ p ∈ st.priority_queue, m.1 ≤ p.1)
    (hdv : st.distances m.2 = some ((m.1 : ℚ) : WithTop ℚ)) :
    RInv g start m.2 m.1 ⟨st.distances, st.previous_vertices,
      removeFirst st.priority_queue m⟩ := by
  refine ⟨hInv.dom, hInv.start0, ?_, ?_, ?_, ?_, hInv.pathwit, hInv.link,
    hInv.chain, hdv, ?_, ?_⟩
  · intro p hp
    exact hInv.queue_wf p (removeFirst_subset _ _ _ hp)
  · intro w q hq
    exact le_trans (countPair_removeFirst_le _ _ _) (hInv.uniq w q hq)
  · intro w hw p hp
    rcases settled_cases_removeFirst w hw with hsw | hwm
    · exact hInv.settled_le w hsw p (removeFirst_subset _ _ _ hp)
    · subst hwm
      exact ⟨m.1, hdv, hmin p (removeFirst_subset _ _ _ hp)⟩
  · intro w hwne hw p hp
    rcases settled_cases_removeFirst w hw with hsw | hwm
    · exact hInv.relaxed w hsw p hp
    · exact absurd hwm hwne
  · intro p hp
    exact hmin p (removeFirst_subset _ _ _ hp)
  · intro w hw
    rcases settled_cases_removeFirst w hw with hsw | hwm
    · exact hInv.settled_le w hsw m hmem
    · subst hwm
      exact ⟨m.1, hdv, le_refl _⟩

theorem popped_settled {st : DState} {m : ℚ × Nat}
    (hmem : m ∈ st.priority_queue)
    (huniq : countPair st.priority_queue m ≤ 1)
    (hdv : st.distances m.2 = some ((m.1 : ℚ) : WithTop ℚ)) :
    SettledP ⟨st.distances, st.previous_vertices,
      removeFirst st.priority_queue m⟩ m.2 := by
  refine ⟨⟨m.1, hdv⟩, ?_⟩
  rintro ⟨p, hp, hpx, hdx⟩
  have h1 : ((p.1 : ℚ) : WithTop ℚ) = ((m.1 : ℚ) : WithTop ℚ) :=
    Option.some.inj (hdx.symm.trans hdv)
  have hp1 : p.1 = m.1 := by exact_mod_cast h1
  have hpm : p = m := Prod.ext hp1 hpx
  have hc := countPair_removeFirst_self st.priority_queue m hmem
  have hmem' : m ∈ removeFirst st.priority_queue m := hpm ▸ hp
  have := (countPair_pos_iff_mem (removeFirst st.priority_queue m) m).mpr hmem'
  omega

theorem popped_not_settled {st : DState} {m : ℚ × Nat}
    (hmem : m ∈ st.priority_queue)
    (hdv : st.distances m.2 = some ((m.1 : ℚ) : WithTop ℚ)) :
    ¬ SettledP st m.2 := fun h => h.2 ⟨m, hmem, rfl, hdv⟩

/-! ### Step equations for the main loop -/

theorem dijkstraLoop_succ_nil {g : Graph} {fuel : Nat} {st : DState}
    (hpop : heappop st.priority_queue = none) :
    dijkstraLoop g (fuel + 1) st = .ok st := by
  simp only [dijkstraLoop, hpop]

theorem dijkstraLoop_succ_stale {g : Graph} {fuel : Nat} {st : DState}
    {m : ℚ × Nat} {rest : List (ℚ × Nat)} {dcur : WithTop ℚ}
    (hpop : heappop st.priority_queue = some (m, rest))
    (hdcur : st.distances m.2 = some dcur)
    (hstale : dcur < ((m.1 : ℚ) : WithTop ℚ)) :
    dijkstraLoop g (fuel + 1) st =
      dijkstraLoop g fuel ⟨st.distances, st.previous_vertices, rest⟩ := by
  obtain ⟨m1, m2⟩ := m
  have hdcur' : st.distances m2 = some dcur := hdcur
  have hstale' : dcur < ((m1 : ℚ) : WithTop ℚ) := hstale
  simp only [dijkstraLoop, hpop, hdcur']
  rw [if_pos hstale']

theorem dijkstraLoop_succ_process {g : Graph} {fuel : Nat} {st : DState}
    {m : ℚ × Nat} {rest : List (ℚ × Nat)} {dcur : WithTop ℚ}
    {nb : List (Nat × ℚ)} {st2 : DState}
    (hpop : heappop st.priority_queue = some (m, rest))
    (hdcur : st.distances m.2 = some dcur)
    (hfresh : ¬ dcur < ((m.1 : ℚ) : WithTop ℚ))
    (hadj : adjLookup g m.2 = some nb)
    (hrelax : relaxAll m.1 m.2 nb
      ⟨st.distances, st.previous_vertices, rest⟩ = .ok st2) :
    dijkstraLoop g (fuel + 1) st = dijkstraLoop g fuel st2 := by
  obtain ⟨m1, m2⟩ := m
  have hdcur' : st.distances m2 = some dcur := hdcur
  have hfresh' : ¬ dcur < ((m1 : ℚ) : WithTop ℚ) := hfresh
  have hadj' : adjLookup g m2 = some nb := hadj
  have hrelax' : relaxAll m1 m2 nb
      ⟨st.distances, st.previous_vertices, rest⟩ = .ok st2 := hrelax
  simp only [dijkstraLoop, hpop, hdcur', hadj', hrelax']
  rw [if_neg hfresh']

/-! ### The main loop terminates with the invariant and an empty frontier -/

theorem dijkstraLoop_spec {g : Graph} {start : Nat}
    (hWF : WFGraph g) (hNN : NonNegWeights g) :
    ∀ (fuel : Nat) (st : DState), DInv g start st → phi g st < fuel →
      ∃ st', dijkstraLoop g fuel st = .ok st' ∧ DInv g start st' ∧
        st'.priority_queue = [] := by
  intro fuel
  induction fuel with
  | zero =>
    intro st _ hphi
    exact absurd hphi (Nat.not_lt_zero _)
  | succ fuel ih =>
    intro st hInv hphi
    cases hq : st.priority_queue with
    | nil =>
      have hpop : heappop st.priority_queue = none := by rw [hq]; rfl
      exact ⟨st, dijkstraLoop_succ_nil hpop, hInv, hq⟩
    | cons x xs =>
      obtain ⟨m, hpop, hmem, hmin, hperm, hlen, hsub⟩ := heappop_spec hq
      obtain ⟨hkm, h0m, dcur, hdcur, hdle⟩ := hInv.queue_wf m hmem
      by_cases hstale : dcur < ((m.1 : ℚ) : WithTop ℚ)
      · -- the popped entry is stale: the loop skips it
        have hsiff : ∀ z, SettledP st z ↔ SettledP
            ⟨st.distances, st.previous_vertices,
              removeFirst st.priority_queue m⟩ z :=
          fun z => settled_iff_removeFirst hdcur hstale z
        have hInv1 : DInv g start ⟨st.distances, st.previous_vertices,
            removeFirst st.priority_queue m⟩ := by
          refine ⟨hInv.dom, hInv.start0, ?_, ?_, ?_, ?_, hInv.pathwit,
            hInv.link, hInv.chain⟩
          · intro p hp
            exact hInv.queue_wf p (removeFirst_subset _ _ _ hp)
          · intro v q hvq
            exact le_trans (countPair_removeFirst_le _ _ _) (hInv.uniq v q hvq)
          · intro v hv p hp
            exact hInv.settled_le v ((hsiff v).mpr hv) p
              (removeFirst_subset _ _ _ hp)
          · intro v hv p hp
            exact hInv.relaxed v ((hsiff v).mpr hv) p hp
        have hphi1 : phi g ⟨st.distances, st.previous_vertices,
            removeFirst st.priority_queue m⟩ < fuel := by
          have hsum : unsettledDegSum g ⟨st.distances, st.previous_vertices,
              removeFirst st.priority_queue m⟩ = unsettledDegSum g st := by
            unfold unsettledDegSum
            congr 1
            apply List.map_congr_left
            intro e _
            rw [settledB_congr (hsiff e.1)]
          unfold phi at hphi ⊢
          rw [hsum]
          show (removeFirst st.priority_queue m).length +
            unsettledDegSum g st < fuel
          omega
        obtain ⟨st', hrun, hI', hq'⟩ := ih _ hInv1 hphi1
        refine ⟨st', ?_, hI', hq'⟩
        rw [dijkstraLoop_succ_stale hpop hdcur hstale]
        exact hrun
      · -- the popped entry is current: its vertex is processed and settles
        have hdvm : st.distances m.2 = some ((m.1 : ℚ) : WithTop ℚ) := by
          rw [hdcur, le_antisymm hdle (not_lt.mp hstale)]
        obtain ⟨nb, hadj⟩ : ∃ nb, adjLookup g m.2 = some nb := by
          have hsome := hkm
          unfold isKey at hsome
          exact Option.isSome_iff_exists.mp hsome
        have hR1 : RInv g start m.2 m.1 ⟨st.distances, st.previous_vertices,
            removeFirst st.priority_queue m⟩ := pop_rinv hInv hmem hmin hdvm
        have hns : ∀ p ∈ nb, p ∈ get_neighbors g m.2 := by
          intro p hp
          unfold get_neighbors
          rw [hadj]
          exact hp
        obtain ⟨st2, hrelax, hR2, hsiff2, hmono2, hbound2, htail, hqv⟩ :=
          relaxAll_spec hWF hNN h0m hkm nb
            ⟨st.distances, st.previous_vertices,
              removeFirst st.priority_queue m⟩ hns hR1
        obtain ⟨tail, htq, htlen⟩ := htail
        have huniqm : countPair st.priority_queue m ≤ 1 := by
          have := hInv.uniq m.2 m.1 hdvm
          rwa [Prod.mk.eta] at this
        have hsettled2 : SettledP st2 m.2 :=
          (hsiff2 m.2).mp (popped_settled hmem huniqm hdvm)
        have hInv2 : DInv g start st2 := by
          refine ⟨hR2.dom, hR2.start0, hR2.queue_wf, hR2.uniq, hR2.settled_le,
            ?_, hR2.pathwit, hR2.link, hR2.chain⟩
          intro w hw p hp
          by_cases hwm : w = m.2
          · subst hwm
            have hpnb : p ∈ nb := by
              unfold get_neighbors at hp
              rw [hadj] at hp
              exact hp
            obtain ⟨dnp, hdnp, hdnpb⟩ := hbound2 p hpnb
            exact ⟨m.1, dnp, hR2.distv, hdnp, hdnpb⟩
          · exact hR2.relaxed_nv w hwm hw p hp
        have hmono_settledB : ∀ z, settledB st z = true →
            settledB st2 z = true := by
          intro z hz
          rw [settledB_iff] at hz ⊢
          exact (hsiff2 z).mp (settled_mono_removeFirst z hz)
        have hvB : settledB st m.2 = false := by
          rw [Bool.eq_false_iff]
          intro htrue
          exact popped_not_settled hmem hdvm ((settledB_iff _ _).mp htrue)
        have hv2B : settledB st2 m.2 = true := (settledB_iff _ _).mpr hsettled2
        have hgain := unsettledDegSum_gain hmono_settledB hvB hv2B hadj
        have hphi2 : phi g st2 < fuel := by
          unfold phi at hphi ⊢
          have hlq : st2.priority_queue.length
              = (removeFirst st.priority_queue m).length + tail.length := by
            rw [htq]
            simp
          omega
        obtain ⟨st', hrun, hI', hq'⟩ := ih st2 hInv2 hphi2
        refine ⟨st', ?_, hI', hq'⟩
        rw [dijkstraLoop_succ_process hpop hdcur hstale hadj hrelax]
        exact hrun

/-! ### After the loop: the distances bound every walk -/

theorem settled_of_empty {st : DState} (hempty : st.priority_queue = [])
    {v : Nat} (hf : FiniteD st v) : SettledP st v := by
  refine ⟨hf, ?_⟩
  rintro ⟨p, hp, -, -⟩
  rw [hempty] at hp
  exact absurd hp (List.not_mem_nil p)

theorem walk_bound {g : Graph} {start : Nat} {st : DState}
    (hInv : DInv g start st) (hempty : st.priority_queue = []) :
    ∀ {u w : Nat} {q : ℚ}, Walk g u w q →
      ∀ qu : ℚ, st.distances u = some ((qu : ℚ) : WithTop ℚ) →
      ∃ qw : ℚ, st.distances w = some ((qw : ℚ) : WithTop ℚ) ∧
        qw ≤ qu + q := by
  intro u w q hw
  induction hw with
  | nil v hv =>
    intro qu hqu
    exact ⟨qu, hqu, by linarith⟩
  | cons a b c wt q' he hrest ih =>
    intro qu hqu
    have hsettled : SettledP st a := settled_of_empty hempty ⟨qu, hqu⟩
    obtain ⟨qa, dn, hqa, hdn, hle⟩ := hInv.relaxed a hsettled (b, wt) he
    have hqa' : qa = qu := by
      have h := hqa.symm.trans hqu
      exact_mod_cast Option.some.inj h
    obtain ⟨qb, hqb, hqble⟩ := WithTop.le_coe_iff.mp hle
    rw [hqb] at hdn
    obtain ⟨qw, hqw, hqwle⟩ := ih qb hdn
    rw [hqa'] at hqble
    exact ⟨qw, hqw, by linarith⟩

theorem finite_iff_reachable {g : Graph} {start : Nat} {st : DState}
    (hInv : DInv g start st) (hempty : st.priority_queue = []) (w : Nat) :
    FiniteD st w ↔ Reachable g start w := by
  constructor
  · rintro ⟨q, hq⟩
    exact ⟨q, hInv.pathwit w q hq⟩
  · rintro ⟨q, hwalk⟩
    obtain ⟨qw, hqw, -⟩ := walk_bound hInv hempty hwalk 0 hInv.start0
    exact ⟨qw, hqw⟩

/-! ### Path reconstruction follows the `previous_vertices` spine -/

/-- The exact vertex sequence the reconstruction loop walks from `v` down to
`start` through `prev`. -/
inductive Spine (prev : Nat → Option Nat) (start : Nat) :
    Nat → List Nat → Prop where
  | base : Spine prev start start [start]
  | step (v u : Nat) (l : List Nat) (hne : v ≠ start)
      (hprev : prev v = some u) (hu : Spine prev start u l) :
      Spine prev start v (v :: l)

theorem spine_ne_nil {prev : Nat → Option Nat} {start v : Nat} {l : List Nat}
    (h : Spine prev start v l) : l ≠ [] := by
  cases h <;> simp

theorem spine_head {prev : Nat → Option Nat} {start v : Nat} {l : List Nat}
    (h : Spine prev start v l) : l.head? = some v := by
  cases h <;> rfl

theorem spine_last {prev : Nat → Option Nat} {start v : Nat} {l : List Nat}
    (h : Spine prev start v l) : l.getLast? = some start := by
  induction h with
  | base => rfl
  | step w u l' hne hprev hu ih =>
    cases l' with
    | nil => exact (spine_ne_nil hu rfl).elim
    | cons y ys =>
      rw [List.getLast?_cons_cons]
      exact ih

theorem spine_sublist {prev : Nat → Option Nat} {start u : Nat} {l : List Nat}
    (h : Spine prev start u l) :
    ∀ v ∈ l, ∃ l', Spine prev start v l' ∧ l'.Sublist l := by
  induction h with
  | base =>
    intro v hv
    rw [List.mem_singleton] at hv
    subst hv
    exact ⟨[v], Spine.base, List.Sublist.refl _⟩
  | step w u' l' hne hprev hu ih =>
    intro v hv
    rcases List.mem_cons.mp hv with hv | hv
    · subst hv
      exact ⟨v :: l', Spine.step v u' l' hne hprev hu, List.Sublist.refl _⟩
    · obtain ⟨l2, hl2, hsub⟩ := ih v hv
      exact ⟨l2, hl2, hsub.trans (List.sublist_cons_self w l')⟩

theorem rs_spine_nodup {prev : Nat → Option Nat} {start v : Nat}
    (h : RS prev start v) : ∃ l, Spine prev start v l ∧ l.Nodup := by
  induction h with
  | base => exact ⟨[start], Spine.base, List.nodup_singleton _⟩
  | step w u hprev hu ih =>
    obtain ⟨l, hl, hnd⟩ := ih
    by_cases hws : w = start
    · refine ⟨[start], ?_, List.nodup_singleton _⟩
      rw [hws]
      exact Spine.base
    · by_cases hwl : w ∈ l
      · obtain ⟨l2, hl2, hsub⟩ := spine_sublist hl w hwl
        exact ⟨l2, hl2, List.Nodup.sublist hsub hnd⟩
      · exact ⟨w :: l, Spine.step w u l hws hprev hl,
          List.nodup_cons.mpr ⟨hwl, hnd⟩⟩

theorem spine_keys {g : Graph} {start : Nat} {st : DState}
    (hInv : DInv g start st) (hs : isKey g start = true) :
    ∀ {v : Nat} {l : List Nat}, Spine st.previous_vertices start v l →
      ∀ x ∈ l, isKey g x = true := by
  intro v l h
  induction h with
  | base =>
    intro x hx
    rw [List.mem_singleton] at hx
    subst hx
    exact hs
  | step w u l' hne hprev hu ih =>
    intro x hx
    rcases List.mem_cons.mp hx with hx | hx
    · subst hx
      obtain ⟨wt, qu, qv, hmem, hqu, hqv, -⟩ := hInv.link x u hprev
      have hdom := hInv.dom x
      rw [hqv] at hdom
      simpa using hdom.symm
    · exact ih x hx

theorem isKey_mem_vertices {g : Graph} {v : Nat} (h : isKey g v = true) :
    v ∈ get_vertices g := by
  unfold isKey adjLookup at h
  cases hf : List.find? (fun e => e.1 = v) g with
  | none =>
    rw [hf] at h
    simp at h
  | some e =>
    have hmem := List.mem_of_find?_eq_some hf
    have he : e.1 = v := by simpa using List.find?_some hf
    unfold get_vertices
    exact he ▸ List.mem_map_of_mem _ hmem

theorem nodup_keys_length {g : Graph} {l : List Nat} (hnd : l.Nodup)
    (hkeys : ∀ x ∈ l, isKey g x = true) : l.length ≤ g.length := by
  have hsub : l ⊆ get_vertices g := fun x hx => isKey_mem_vertices (hkeys x hx)
  have h := List.Subperm.length_le (List.subperm_of_subset hnd hsub)
  simpa [get_vertices] using h

theorem reconstruct_spine {prev : Nat → Option Nat} {start : Nat} :
    ∀ {v : Nat} {l : List Nat}, Spine prev start v l →
    ∀ (fuel : Nat) (acc : List Nat), l.length ≤ fuel →
      reconstruct prev start fuel v acc = some (l.reverse ++ acc) := by
  intro v l h
  induction h with
  | base =>
    intro fuel acc hfuel
    cases fuel with
    | zero => simp at hfuel
    | succ f =>
      unfold reconstruct
      rw [if_pos rfl]
      simp
  | step w u l' hne hprev hu ih =>
    intro fuel acc hfuel
    cases fuel with
    | zero => simp at hfuel
    | succ f =>
      have hlen : l'.length ≤ f := by
        simp at hfuel
        omega
      simp only [reconstruct, if_neg hne, hprev]
      rw [ih f (w :: acc) hlen]
      simp

theorem spine_walk {g : Graph} {start : Nat} {st : DState}
    (hInv : DInv g start st) (hs : isKey g start = true) :
    ∀ {v : Nat} {l : List Nat}, Spine st.previous_vertices start v l →
      ∃ (q qv : ℚ), ListWalk g l.reverse q ∧
        st.distances v = some ((qv : ℚ) : WithTop ℚ) ∧ q ≤ qv := by
  intro v l h
  induction h with
  | base =>
    exact ⟨0, 0, ListWalk.single start hs, hInv.start0, le_refl _⟩
  | step w u l' hne hprev hu ih =>
    obtain ⟨q0, qu', hlw, hdu, hq0⟩ := ih
    obtain ⟨wt, qu, qv, hmem, hqu, hqv, hle⟩ := hInv.link w u hprev
    have hqq : qu = qu' := by
      have h := hqu.symm.trans hdu
      exact_mod_cast Option.some.inj h
    have hkw : isKey g w = true := by
      have hdom := hInv.dom w
      rw [hqv] at hdom
      simpa using hdom.symm
    have hlast : l'.reverse.getLast? = some u := by
      rw [List.getLast?_reverse]
      exact spine_head hu
    have hlw2 : ListWalk g (l'.reverse ++ [w]) (q0 + wt) :=
      hlw.snoc_edge hlast hmem hkw
    refine ⟨q0 + wt, qv, ?_, hqv, ?_⟩
    · rw [List.reverse_cons]
      exact hlw2
    · rw [hqq] at hle
      linarith

/-- Running the main loop from the initial state succeeds and empties the
frontier, preserving the invariant. -/
theorem shortest_path_run {g : Graph} {start : Nat}
    (hWF : WFGraph g) (hNN : NonNegWeights g)
    (hs : isKey g start = true) :
    ∃ st', dijkstraLoop g (totalAdj g + 2) (dijkstraInit g start) = .ok st' ∧
      DInv g start st' ∧ st'.priority_queue = [] := by
  apply dijkstraLoop_spec hWF hNN
  · exact dijkstraInit_dinv hs
  · have h := phi_init_le g start
    omega

end Graph

/-- With an absent start vertex, `shortest_path` raises `KeyError` on its
first loop iteration: `distances[start] = 0` creates the key, the initial
frontier entry `(0, start)` is popped, the stale-guard `0 > 0` fails, and the
unguarded `self.adjacency_list[start]` access fires. -/
theorem shortest_path_absent_start (g : Graph) (v finish : Nat)
    (h : Graph.isKey g v = false) :
    Graph.shortest_path g v finish = .keyError := by
  have hadj : Graph.adjLookup g v = none := by
    unfold Graph.isKey at h
    exact Option.not_isSome_iff_eq_none.mp (by simp [h])
  have hloop : Graph.dijkstraLoop g (Graph.totalAdj g + 2)
      (Graph.dijkstraInit g v) = .keyError := by
    have hfuel : Graph.totalAdj g + 2 = (Graph.totalAdj g + 1) + 1 := rfl
    rw [hfuel]
    conv_lhs => rw [Graph.dijkstraLoop]
    have hpop : Graph.heappop [((0 : ℚ), v)] = some (((0 : ℚ), v), []) := by
      simp [Graph.heappop, Graph.heapMin, Graph.removeFirst]
    simp only [Graph.dijkstraInit, hpop, if_true, gt_iff_lt, lt_irrefl,
      if_false, hadj]
  unfold Graph.shortest_path
  rw [hloop]

/-! ## Concrete fixtures used by evaluation theorems -/

/-- A database containing patients `1` and `2`. -/
def demoDb : Nat → Option PatientRec :=
  fun n => if n = 1 ∨ n = 2 then some ⟨0, 3, 0⟩ else none

/-- Fixed vital signs: all normal. -/
def demoVS : VitalSigns := ⟨some 60, some (.parsed 100 70), some 95⟩

/-- A waiting room with patient `1` (score 10) already cached and enqueued. -/
def demoCachedSvc : WaitingRoomService :=
  ⟨[(-10, 1)], [(1, ⟨10, 0, 0, 3, 0⟩)]⟩

/-- A single-edge graph on vertices `0` and `1`; vertex `2` is absent. -/
def demoGraph : Graph := Graph.add_edge ([] : Graph) 0 1 1

/-! ## Claims about the queue and the services -/

/-- C1: the source's `PriorityQueue.dequeue` returns the highest-priority item
but performs no removal: it is extensionally equal to `peek` and the backing
deque is not touched (the embedding's `dequeue` has no state output because
the source method contains no mutation).  Evaluated at the singleton queue
`[(5, item 0)]`, which the claim says `dequeue` should shrink to size 0. -/
theorem claim_C1 :
    PriorityQueue.dequeue [((5 : ℚ), (0 : Nat))] = some 0 ∧
      ∀ (q : List (ℚ × Nat)), PriorityQueue.dequeue q = PriorityQueue.peek q := by
  refine ⟨rfl, fun q => ?_⟩
  cases q <;> rfl

/-- C2: adding patient 1 with priorityScore 10 and then patient 2 with
priorityScore 50 (both adds succeed), `get_next_patient` returns patient 1 —
the *lowest* score — because the service enqueues the negated score into a
queue whose `dequeue` scans for the *maximum* stored priority.  The claim says
it should return patient 2. -/
theorem claim_C2 :
    (WaitingRoomService.add_to_waiting_room ⟨[], []⟩ 1 10 demoDb 0).2.isOk = true ∧
    (WaitingRoomService.add_to_waiting_room
        (WaitingRoomService.add_to_waiting_room ⟨[], []⟩ 1 10 demoDb 0).1
        2 50 demoDb 0).2.isOk = true ∧
    (WaitingRoomService.get_next_patient
      (WaitingRoomService.add_to_waiting_room
        (WaitingRoomService.add_to_waiting_room ⟨[], []⟩ 1 10 demoDb 0).1
        2 50 demoDb 0).1).2 = some 1 := by
  refine ⟨rfl, rfl, by decide⟩

/-- C7: for all acuity levels, waiting times ≥ 0 and fully-provided,
well-formed vital signs, the triage priority score equals the spec's formula:
acuity base score plus `min(waitingMinutes * 0.1, 20)` plus the three
additive, independent vital-sign penalties, with no cap. -/
theorem claim_C7 (esi : ESILevel) (w : ℤ) (hr : ℚ) (sys dia : ℤ) (spo2 : ℚ)
    (_hw : 0 ≤ w) :
    TriageService.calculate_priority_score esi w
        ⟨some hr, some (.parsed sys dia), some spo2⟩ =
      (match esi with
        | .LEVEL_1 => (100 : ℚ)
        | .LEVEL_2 => 80
        | .LEVEL_3 => 60
        | .LEVEL_4 => 40
        | .LEVEL_5 => 20)
      + min ((w : ℚ) * (1 / 10)) 20
      + (if hr < 50 ∨ hr > 120 then 10 else 0)
      + (if sys < 90 ∨ sys > 180 then 10 else 0)
      + (if spo2 < 92 then 15 else 0) := by
  cases esi <;>
    simp [TriageService.calculate_priority_score,
      TriageService.calculate_vital_adjustment, TriageService.base_score,
      TriageService.time_adjustment, add_assoc] <;>
    split_ifs <;> ring

theorem claim_C7_witness :
    TriageService.calculate_priority_score .LEVEL_2 5
        ⟨some 60, some (.parsed 100 70), some 95⟩ =
      80 + min ((5 : ℚ) * (1 / 10)) 20
        + (if (60 : ℚ) < 50 ∨ (60 : ℚ) > 120 then 10 else 0)
        + (if (100 : ℤ) < 90 ∨ (100 : ℤ) > 180 then 10 else 0)
        + (if (95 : ℚ) < 92 then 15 else 0) :=
  claim_C7 .LEVEL_2 5 60 100 70 95 (by decide)

/-- C8: the UndoStack is strictly LIFO: push `a` then `b` onto an empty stack,
the first pop returns `b`, the second returns `a`, the third (on the now-empty
stack) returns null. -/
theorem claim_C8 (a b : Nat) :
    (Stack.pop (Stack.push (Stack.push Stack.empty a) b)).1 = some b ∧
    (Stack.pop (Stack.pop (Stack.push (Stack.push Stack.empty a) b)).2).1 =
      some a ∧
    (Stack.pop
      (Stack.pop (Stack.pop (Stack.push (Stack.push Stack.empty a) b)).2).2).1 =
      none :=
  ⟨rfl, rfl, rfl⟩

/-- C9: adding an already-cached patient id fails with the DuplicateEntry
error (a rejected operation, not a silent no-op) and leaves the queue and the
membership cache unchanged. -/
theorem claim_C9 (svc : WaitingRoomService) (pid : Nat) (score : ℚ)
    (db : Nat → Option PatientRec) (now : Nat)
    (h : WaitingRoomService.cacheContains svc pid = true) :
    WaitingRoomService.add_to_waiting_room svc pid score db now =
      (svc, .error .duplicateEntry) := by
  unfold WaitingRoomService.add_to_waiting_room
  simp [h]

theorem claim_C9_witness :
    WaitingRoomService.add_to_waiting_room demoCachedSvc 1 10 demoDb 0 =
      (demoCachedSvc, .error .duplicateEntry) :=
  claim_C9 demoCachedSvc 1 10 demoDb 0 (by rfl)

/-- C10: for fixed acuity level and vital signs the triage score is monotone
non-decreasing in the waiting time, and the wait-time contribution
`time_adjustment` is exactly 20 from 200 minutes on. -/
theorem claim_C10 :
    (∀ (esi : ESILevel) (vs : VitalSigns) (w w' : ℤ), w ≤ w' →
      TriageService.calculate_priority_score esi w vs ≤
        TriageService.calculate_priority_score esi w' vs) ∧
    (∀ w : ℤ, 200 ≤ w → TriageService.time_adjustment w = 20) := by
  constructor
  · intro esi vs w w' h
    unfold TriageService.calculate_priority_score
    have : TriageService.time_adjustment w ≤ TriageService.time_adjustment w' := by
      unfold TriageService.time_adjustment
      exact min_le_min
        (mul_le_mul_of_nonneg_right (by exact_mod_cast h) (by norm_num)) le_rfl
    linarith
  · intro w h
    unfold TriageService.time_adjustment
    rw [min_eq_right]
    calc (20 : ℚ) = 200 * (1 / 10) := by norm_num
    _ ≤ (w : ℚ) * (1 / 10) := by
        exact mul_le_mul_of_nonneg_right (by exact_mod_cast h) (by norm_num)

theorem claim_C10_witness :
    TriageService.calculate_priority_score .LEVEL_3 5 demoVS ≤
      TriageService.calculate_priority_score .LEVEL_3 7 demoVS ∧
    TriageService.time_adjustment 250 = 20 :=
  ⟨claim_C10.1 .LEVEL_3 demoVS 5 7 (by decide), claim_C10.2 250 (by decide)⟩

/-- C3 (counterexample to the claim as stated): `shortestPath` invoked with
the absent vertex `2` as start raises `KeyError` instead of returning an
empty sequence. -/
theorem claim_C3_counterexample :
    Graph.shortest_path demoGraph 2 0 = PyResult.keyError := by decide

/-- C3 (amended): on an absent vertex, `neighbors`, `degreeOf`, BFS and DFS
return an empty sequence (or zero) and never raise; `shortest_path` with an
absent *end* vertex (and a present start, on a well-formed graph with
non-negative weights) soft-fails to the empty sequence; but `shortestPath`
with an absent *start* vertex raises `KeyError` (for every graph and every
end vertex). -/
theorem claim_C3 (g : Graph) (v : Nat) (h : Graph.isKey g v = false) :
    Graph.get_neighbors g v = [] ∧
    Graph.get_node_connections g v = 0 ∧
    (∀ md, Graph.bfs g v md = []) ∧
    (∀ e, Graph.dfs g v e = []) ∧
    (∀ start, Graph.WFGraph g → Graph.NonNegWeights g →
      Graph.isKey g start = true →
      Graph.shortest_path g start v = PyResult.ok []) ∧
    (∀ finish, Graph.shortest_path g v finish = PyResult.keyError) := by
  have hadj : Graph.adjLookup g v = none := by
    unfold Graph.isKey at h
    exact Option.not_isSome_iff_eq_none.mp (by simp [h])
  refine ⟨?_, ?_, ?_, ?_, ?_, ?_⟩
  · simp [Graph.get_neighbors, hadj]
  · simp [Graph.get_node_connections, hadj]
  · intro md
    simp [Graph.bfs, h]
  · intro e
    simp [Graph.dfs, h]
  · intro start hWF hNN hs
    obtain ⟨st', hrun, hInv', hemp⟩ := Graph.shortest_path_run hWF hNN hs
    have hne : v ≠ start := by
      intro heq
      rw [heq, hs] at h
      exact absurd h (by decide)
    have hprev : st'.previous_vertices v = none := by
      cases hp : st'.previous_vertices v with
      | none => rfl
      | some u =>
        obtain ⟨wt, qu, qv, hmem, hqu, hqv, -⟩ := hInv'.link v u hp
        have hdom := hInv'.dom v
        rw [hqv, h] at hdom
        simp at hdom
    have hrec : Graph.reconstruct st'.previous_vertices start
        (List.length g + 1) v [] = some [] := by
      simp only [Graph.reconstruct, if_neg hne, hprev]
    unfold Graph.shortest_path
    rw [hrun]
    simp only [hrec]
  · intro finish
    exact shortest_path_absent_start g v finish h

theorem claim_C3_witness :
    Graph.get_neighbors demoGraph 2 = [] ∧
    Graph.get_node_connections demoGraph 2 = 0 ∧
    (∀ md, Graph.bfs demoGraph 2 md = []) ∧
    (∀ e, Graph.dfs demoGraph 2 e = []) ∧
    (∀ start, Graph.WFGraph demoGraph → Graph.NonNegWeights demoGraph →
      Graph.isKey demoGraph start = true →
      Graph.shortest_path demoGraph start 2 = PyResult.ok []) ∧
    (∀ finish, Graph.shortest_path demoGraph 2 finish = PyResult.keyError) :=
  claim_C3 demoGraph 2 (by decide)

/-- C4: after every sequence of `push`, `pop` and `update_priority` operations
starting from the empty heap, the max-heap invariant holds: for every index
`i > 0`, `heap[i].priority ≤ heap[(i-1)//2].priority`. -/
theorem claim_C4 (ops : List HeapOp) :
    MaxHeap.IsHeap (ops.foldl applyHeapOp []) :=
  foldl_applyHeapOp_isHeap ops [] MaxHeap.isHeap_nil

/-- C5: pushing any sequence of entries and then repeatedly popping yields
exactly the pushed entries (as a permutation) in non-increasing priority
order, and `pop` on the empty heap returns null leaving the heap empty. -/
theorem claim_C5 (entries : List HeapEntry) :
    (MaxHeap.popAll (MaxHeap.heapOfPushes entries)).Perm entries ∧
    List.Sorted (fun a b : HeapEntry => b.priority ≤ a.priority)
      (MaxHeap.popAll (MaxHeap.heapOfPushes entries)) ∧
    MaxHeap.pop [] = (none, []) := by
  have hheap := MaxHeap.heapOfPushes_isHeap entries
  obtain ⟨hperm, hsorted⟩ :=
    MaxHeap.popAllGo_spec (MaxHeap.heapOfPushes entries).length
      (MaxHeap.heapOfPushes entries) hheap le_rfl
  exact ⟨hperm.trans (MaxHeap.heapOfPushes_perm entries), hsorted, rfl⟩

/-- The unit-weight path graph `0 - 1 - 2 - 3` from the spec's round-trip
example. -/
def c6Graph : Graph :=
  Graph.add_edge (Graph.add_edge (Graph.add_edge ([] : Graph) 0 1 1) 1 2 1)
    2 3 1

/-- C6: for every well-formed graph with non-negative weights and both
endpoints present, `shortest_path start start` returns the one-vertex path
`[start]`; when `finish` is unreachable from `start` it returns the empty
sequence; and when `finish` is reachable it returns a start-to-finish vertex
sequence that is a walk in the graph whose total weight is minimal among all
start-to-finish walks. -/
theorem claim_C6 (g : Graph) (start finish : Nat)
    (hWF : Graph.WFGraph g) (hNN : Graph.NonNegWeights g)
    (hs : Graph.isKey g start = true) (_hf : Graph.isKey g finish = true) :
    (start = finish →
      Graph.shortest_path g start finish = PyResult.ok [start]) ∧
    (¬ Graph.Reachable g start finish →
      Graph.shortest_path g start finish = PyResult.ok []) ∧
    (Graph.Reachable g start finish →
      ∃ (path : List Nat) (q : ℚ),
        Graph.shortest_path g start finish = PyResult.ok path ∧
        path.head? = some start ∧ path.getLast? = some finish ∧
        Graph.ListWalk g path q ∧
        ∀ q' : ℚ, Graph.Walk g start finish q' → q ≤ q') := by
  obtain ⟨st', hrun, hInv', hemp⟩ := Graph.shortest_path_run hWF hNN hs
  have hEq : Graph.shortest_path g start finish =
      (match Graph.reconstruct st'.previous_vertices start
          (List.length g + 1) finish [] with
        | some path => PyResult.ok path
        | none => PyResult.outOfFuel) := by
    unfold Graph.shortest_path
    rw [hrun]
  refine ⟨?_, ?_, ?_⟩
  · intro heq
    have hrec : Graph.reconstruct st'.previous_vertices start
        (List.length g + 1) start [] = some [start] := by
      unfold Graph.reconstruct
      rw [if_pos rfl]
    rw [hEq, ← heq, hrec]
  · intro hunreach
    have hne : finish ≠ start := by
      intro h
      exact hunreach ⟨0, by rw [h]; exact Graph.Walk.nil start hs⟩
    have hprevf : st'.previous_vertices finish = none := by
      cases hp : st'.previous_vertices finish with
      | none => rfl
      | some u =>
        obtain ⟨wt, qu, qv, hmem, hqu, hqv, hle⟩ := hInv'.link finish u hp
        exact absurd ⟨qv, hInv'.pathwit finish qv hqv⟩ hunreach
    have hrec : Graph.reconstruct st'.previous_vertices start
        (List.length g + 1) finish [] = some [] := by
      simp only [Graph.reconstruct, if_neg hne, hprevf]
    rw [hEq, hrec]
  · intro hreach
    obtain ⟨qr, hwalkr⟩ := hreach
    obtain ⟨qf, hqf, -⟩ := Graph.walk_bound hInv' hemp hwalkr 0 hInv'.start0
    obtain ⟨l, hspine, hnd⟩ :=
      Graph.rs_spine_nodup (hInv'.chain finish qf hqf)
    have hkeys := Graph.spine_keys hInv' hs hspine
    have hlenl : l.length ≤ List.length g :=
      Graph.nodup_keys_length hnd hkeys
    have hrec := Graph.reconstruct_spine hspine (List.length g + 1) []
      (by omega)
    obtain ⟨q, qv, hlw, hqv, hqle⟩ := Graph.spine_walk hInv' hs hspine
    have hqv' : qv = qf := by
      have h := hqv.symm.trans hqf
      exact_mod_cast Option.some.inj h
    refine ⟨l.reverse, q, ?_, ?_, ?_, hlw, ?_⟩
    · rw [hEq, hrec]
      simp
    · rw [List.head?_reverse]
      exact Graph.spine_last hspine
    · rw [List.getLast?_reverse]
      exact Graph.spine_head hspine
    · intro q' hw'
      obtain ⟨qw', hqw', hqwle⟩ :=
        Graph.walk_bound hInv' hemp hw' 0 hInv'.start0
      have hqw'' : qw' = qf := by
        have h := hqw'.symm.trans hqf
        exact_mod_cast Option.some.inj h
      rw [hqv'] at hqle
      rw [hqw''] at hqwle
      linarith

theorem claim_C6_witness :
    Graph.WFGraph c6Graph ∧ Graph.NonNegWeights c6Graph ∧
    Graph.isKey c6Graph 0 = true ∧ Graph.isKey c6Graph 3 = true ∧
    Graph.Reachable c6Graph 0 3 ∧
    ((0 = 3 → Graph.shortest_path c6Graph 0 3 = PyResult.ok [0]) ∧
     (¬ Graph.Reachable c6Graph 0 3 →
       Graph.shortest_path c6Graph 0 3 = PyResult.ok []) ∧
     (Graph.Reachable c6Graph 0 3 →
       ∃ (path : List Nat) (q : ℚ),
         Graph.shortest_path c6Graph 0 3 = PyResult.ok path ∧
         path.head? = some 0 ∧ path.getLast? = some 3 ∧
         Graph.ListWalk c6Graph path q ∧
         ∀ q' : ℚ, Graph.Walk c6Graph 0 3 q' → q ≤ q')) :=
  have hWF : Graph.WFGraph c6Graph := ⟨by decide, by decide⟩
  have hNN : Graph.NonNegWeights c6Graph :=
    (by decide : ∀ e ∈ c6Graph, ∀ p ∈ e.2, (0 : ℚ) ≤ p.2)
  ⟨hWF, hNN, by decide, by decide,
    ⟨1 + (1 + (1 + 0)), Graph.Walk.cons 0 1 3 1 (1 + (1 + 0)) (by decide)
      (Graph.Walk.cons 1 2 3 1 (1 + 0) (by decide)
        (Graph.Walk.cons 2 3 3 1 0 (by decide) (Graph.Walk.nil 3 (by decide))))⟩,
    claim_C6 c6Graph 0 3 hWF hNN (by decide) (by decide)⟩

end ERMS
